import Mathlib

/-!
Verification of the `dnsclient` Go library (syslab-wm/dnsclient).

This file gives a shallow embedding, in Lean 4, of the parts of the library
relevant to its specification: the CNAME chain-ordering algorithm
(`msgutil.OrderCNAMEs`), the CNAME-following resolution engine
(`dnsclient.Query` / `Lookup`), the address and DNS-SD aggregation helpers
(`GetIPs`, `GetAllServiceBrowserDomains`, the `doPTRQuery*` family) and the
transport-client retry state machines (`queryTCP` / `exchangeTCP`,
`exchangeUDP`).

Modelling conventions:
  * Go slices become `List`s; in-place mutation becomes explicit state passing.
  * A Go runtime panic (out-of-range slice index, `mu.BUG`) is modelled by an
    `Option`-typed result being `none`.
  * The DNS wire codec (github.com/miekg/dns) is external; a message is
    modelled by its response code, answer section and truncation flag, and a
    resource record by its owner name plus typed record data.  A record's
    dynamic Go type and its header `Rrtype` agree, as they do for every
    wire-parsed message.
  * Machine integers (`uint16` rcodes and types, `int` counters) are far from
    overflow in every reachable state and are modelled by `Nat`.
-/

/-- One record of Go type `dns.CNAME`: the owner name (`Hdr.Name`) and the
`Target` field.  These are the only two fields `msgutil.OrderCNAMEs` and the
resolution engine read. -/
structure CNAMERec where
  name : String
  target : String
deriving DecidableEq, Repr

/-- Move the element at index `i` to the front of the list, keeping the other
elements in order.  Models the Go block
`tmp := a[i]; for j := i; j > 0; j-- { a[j] = a[j-1] }; a[0] = tmp`
in `OrderCNAMEs` (src/unnamed/part_008).  Out of range, the list is returned
unchanged (the call sites guard the index). -/
def moveFront (a : List CNAMERec) (i : Nat) : List CNAMERec :=
  match a[i]? with
  | none => a
  | some x => x :: (a.take i ++ a.drop (i + 1))

/-- Swap the elements at indices `i` and `j`.  Models the Go statement
`a[n], a[i] = a[i], a[n]` in `OrderCNAMEs`.  Out of range, the list is
returned unchanged (the call sites guard the indices). -/
def swapIdx (a : List CNAMERec) (i j : Nat) : List CNAMERec :=
  match a[i]?, a[j]? with
  | some x, some y => (a.set i y).set j x
  | _, _ => a

@[simp] theorem moveFront_length (a : List CNAMERec) (i : Nat) :
    (moveFront a i).length = a.length := by
  unfold moveFront
  cases h : a[i]? with
  | none => rfl
  | some x =>
    have hi : i < a.length := by
      by_contra hc
      rw [List.getElem?_eq_none (by omega)] at h
      exact Option.noConfusion h
    simp [List.length_take, List.length_drop]
    omega

@[simp] theorem swapIdx_length (a : List CNAMERec) (i j : Nat) :
    (swapIdx a i j).length = a.length := by
  unfold swapIdx
  cases h1 : a[i]? <;> cases h2 : a[j]? <;> simp

/-- One iteration `i` (and all following iterations of the same pass) of the
inner `for` loop of `OrderCNAMEs` (src/unnamed/part_008, lines 145-161):

    for i := n; i < len(a); i++ {
      if a[i].Target == a[0].Hdr.Name { <move a[i] to front>; flag = true; n++ }
      if a[n-1].Target == a[i].Hdr.Name { a[n], a[i] = a[i], a[n]; flag = true; n++ }
    }

The state is the slice `a`, the sorted count `n` and the `flag`.  A `none`
result models a Go index-out-of-range panic: the second `if` unconditionally
reads `a[n-1]` and, when its condition holds, writes `a[n]`; both indices can
exceed the slice bounds. -/
def innerLoop (a : List CNAMERec) (n i : Nat) (flag : Bool) :
    Option (List CNAMERec × Nat × Bool) :=
  if i < a.length then
    let xi := a.getD i ⟨"", ""⟩
    let x0 := a.getD 0 ⟨"", ""⟩
    let a1 := if xi.target = x0.name then moveFront a i else a
    let n1 := if xi.target = x0.name then n + 1 else n
    let flag1 := if xi.target = x0.name then true else flag
    if n1 - 1 < a1.length then
      if (a1.getD (n1 - 1) ⟨"", ""⟩).target = (a1.getD i ⟨"", ""⟩).name then
        if n1 < a1.length then innerLoop (swapIdx a1 n1 i) (n1 + 1) (i + 1) true
        else none
      else innerLoop a1 n1 (i + 1) flag1
    else none
  else some (a, n, flag)
termination_by a.length - i
decreasing_by
  · simp only [swapIdx_length]
    split <;> simp <;> omega
  · split <;> simp <;> omega

/-- The outer `for flag { flag = false; ... }` loop of `OrderCNAMEs`.  Each
pass resets `flag` and runs the inner loop from `i = n`.  The loop in the Go
source has no fuel; `outerLoop_fuel_stable` below shows that
`a.length - n + 2` passes always suffice (each pass that sets `flag` grows
`n`, and `n` is bounded by the length), so the fuelled recursion with any
fuel of at least that much is an exact model and `none` means exactly that
the Go code panicked. -/
def outerLoop (a : List CNAMERec) (n : Nat) : Nat → Option (List CNAMERec × Nat)
  | 0 => none
  | fuel + 1 =>
    match innerLoop a n n false with
    | none => none
    | some (a1, n1, flag1) =>
      if flag1 then outerLoop a1 n1 fuel else some (a1, n1)

/-- Model of `msgutil.OrderCNAMEs` (src/unnamed/part_008, lines 136-165).
Returns the boolean result paired with the final (permuted) slice; `none`
models an index-out-of-range panic. -/
def OrderCNAMEs (a : List CNAMERec) : Option (Bool × List CNAMERec) :=
  if a.length = 0 then some (true, a)
  else
    match outerLoop a 1 (a.length + 2) with
    | none => none
    | some (a1, n1) => some (decide (n1 = a1.length), a1)

/-- The chain property the spec asks of an ordered CNAME sequence: element
`i`'s target equals element `i+1`'s owner name. -/
def isChain : List CNAMERec → Bool
  | [] => true
  | [_] => true
  | x :: y :: rest => x.target = y.name && isChain (y :: rest)

/-- A list of CNAME records can be arranged into a single chain. -/
def chainable (l : List CNAMERec) : Bool :=
  l.permutations'.any isChain

/-- The chain whose node names are the successive elements of `xs`: record `j`
has owner `xs[j]` and target `xs[j+1]`. -/
def chainOf (xs : List String) : List CNAMERec :=
  (xs.zip xs.tail).map fun p => ⟨p.1, p.2⟩

/-- Default record used with `List.getD` when stating loop conditions. -/
def dummyCNAME : CNAMERec := ⟨"", ""⟩

theorem take_set_of_le {α : Type} (l : List α) (m n : Nat) (x : α) (h : n ≤ m) :
    (l.set m x).take n = l.take n := by
  apply List.ext_getElem
  · simp
  · intro t h1 h2
    rw [List.getElem_take, List.getElem_take, List.getElem_set_ne]
    simp only [List.length_take] at h1
    omega

theorem set_self {α : Type} (l : List α) (i : Nat) (h : i < l.length) :
    l.set i l[i] = l := by
  apply List.ext_getElem
  · simp
  · intro t h1 h2
    rw [List.getElem_set]
    split
    · next heq => subst heq; rfl
    · rfl

theorem moveFront_eq (a : List CNAMERec) (i : Nat) (hi : i < a.length) :
    moveFront a i = a[i] :: (a.take i ++ a.drop (i + 1)) := by
  unfold moveFront
  rw [List.getElem?_eq_getElem hi]

theorem swapIdx_eq (a : List CNAMERec) (i j : Nat) (hi : i < a.length)
    (hj : j < a.length) : swapIdx a i j = (a.set i a[j]).set j a[i] := by
  unfold swapIdx
  rw [List.getElem?_eq_getElem hi, List.getElem?_eq_getElem hj]

theorem moveFront_perm (a : List CNAMERec) (i : Nat) (hi : i < a.length) :
    (moveFront a i).Perm a := by
  have hsplit : a.take i ++ a[i] :: a.drop (i + 1) = a := by
    have h2 : a.drop i = a[i] :: a.drop (i + 1) :=
      List.drop_eq_getElem_cons hi
    rw [← h2, List.take_append_drop]
  have hp := (@List.perm_middle _ (a[i]) (a.take i) (a.drop (i + 1))).symm
  rw [hsplit] at hp
  rw [moveFront_eq a i hi]
  exact hp

theorem moveFront_take (a : List CNAMERec) (i n : Nat) (hn : n ≤ i)
    (hi : i < a.length) : (moveFront a i).take (n + 1) = a[i] :: a.take n := by
  rw [moveFront_eq a i hi, List.take_succ_cons]
  congr 1
  rw [List.take_append_of_le_length (by simp; omega), List.take_take]
  congr 1
  omega

theorem moveFront_getElem_self (a : List CNAMERec) (i : Nat) (h1 : 1 ≤ i)
    (hi : i < a.length) (h : i < (moveFront a i).length) :
    (moveFront a i)[i] = a[i - 1] := by
  obtain ⟨k, rfl⟩ : ∃ k, i = k + 1 := ⟨i - 1, by omega⟩
  have hlt : k < (a.take (k + 1)).length := by simp; omega
  have hq : (moveFront a (k + 1))[k + 1]? = some (a[k]) := by
    rw [moveFront_eq a (k + 1) hi, List.getElem?_cons_succ,
      List.getElem?_append, if_pos hlt, List.getElem?_eq_getElem hlt,
      List.getElem_take]
  rw [List.getElem?_eq_getElem h] at hq
  simpa using Option.some.inj hq

theorem swap_cons_set {α : Type} (z : α) (t : List α) (k : Nat) (hk : k < t.length) :
    (t[k] :: t.set k z).Perm (z :: t) := by
  induction t generalizing k with
  | nil => simp at hk
  | cons w t' ih =>
    cases k with
    | zero => simpa using List.Perm.swap z w t'
    | succ k' =>
      have hk' : k' < t'.length := by simpa using hk
      have e1 : (w :: t')[k' + 1] :: (w :: t').set (k' + 1) z =
          t'[k'] :: w :: t'.set k' z := by simp
      rw [e1]
      exact ((List.Perm.swap w (t'[k']) (t'.set k' z)).trans
        (List.Perm.cons w (ih k' hk'))).trans (List.Perm.swap z w t')

theorem set_set_perm {α : Type} (l : List α) (i j : Nat) (hij : i ≤ j)
    (hi : i < l.length) (hj : j < l.length) :
    ((l.set i l[j]).set j l[i]).Perm l := by
  induction l generalizing i j with
  | nil => simp at hj
  | cons z t ih =>
    cases i with
    | zero =>
      cases j with
      | zero => simp
      | succ k =>
        have hk : k < t.length := by simpa using hj
        have e1 : ((z :: t).set 0 (z :: t)[k + 1]).set (k + 1) (z :: t)[0] =
            t[k] :: t.set k z := by simp
        rw [e1]
        exact swap_cons_set z t k hk
    | succ i' =>
      cases j with
      | zero => omega
      | succ j' =>
        have hi' : i' < t.length := by simpa using hi
        have hj' : j' < t.length := by simpa using hj
        have := ih i' j' (by omega) hi' hj'
        simpa using List.Perm.cons z this

theorem swapIdx_perm (a : List CNAMERec) (i j : Nat) (hi : i < a.length)
    (hj : j < a.length) : (swapIdx a i j).Perm a := by
  rw [swapIdx_eq a i j hi hj]
  rcases le_or_lt i j with h | h
  · exact set_set_perm a i j h hi hj
  · rw [List.set_comm _ _ _ (by omega)]
    exact set_set_perm a j i (by omega) hj hi

theorem swapIdx_take (a : List CNAMERec) (n i : Nat) (hn : n ≤ i)
    (hnl : n < a.length) (hi : i < a.length) :
    (swapIdx a n i).take (n + 1) = a.take n ++ [a[i]] := by
  rw [swapIdx_eq a n i hnl hi]
  rcases Nat.eq_or_lt_of_le hn with h | h
  · subst h
    rw [List.set_set, set_self, List.take_succ, List.getElem?_eq_getElem hnl]
    rfl
  · rw [take_set_of_le _ _ _ _ (by omega), List.take_succ,
      List.getElem?_eq_getElem (show n < (a.set n (a[i])).length by simp; omega)]
    congr 1
    · rw [take_set_of_le _ _ _ _ (Nat.le_refl n)]
    · rw [List.getElem_set]
      simp

theorem chainOf_length (xs : List String) :
    (chainOf xs).length = xs.length - 1 := by
  simp [chainOf]

theorem chainOf_getElem (xs : List String) (j : Nat)
    (h : j < (chainOf xs).length) (h1 : j < xs.length) (h2 : j + 1 < xs.length) :
    (chainOf xs)[j] = ⟨xs[j], xs[j + 1]⟩ := by
  simp only [chainOf, List.getElem_map, List.getElem_zip, List.getElem_tail]

theorem chainOf_map_name (xs : List String) :
    (chainOf xs).map CNAMERec.name = xs.take (xs.length - 1) := by
  apply List.ext_getElem
  · simp [chainOf_length]
  · intro t h1 h2
    have hcl : t < (chainOf xs).length := by simpa using h1
    have hx1 : t < xs.length := by rw [chainOf_length] at hcl; omega
    have hx2 : t + 1 < xs.length := by rw [chainOf_length] at hcl; omega
    simp only [List.getElem_map, List.getElem_take]
    rw [chainOf_getElem xs t hcl hx1 hx2]

theorem chainOf_nodup (xs : List String) (hnd : xs.Nodup) :
    (chainOf xs).Nodup := by
  apply List.Nodup.of_map CNAMERec.name
  rw [chainOf_map_name]
  exact List.Nodup.sublist (List.take_sublist _ _) hnd

theorem isChain_chainOf (xs : List String) : isChain (chainOf xs) = true := by
  induction xs with
  | nil => rfl
  | cons x xs ih =>
    cases xs with
    | nil => rfl
    | cons y ys =>
      have hcons : chainOf (x :: y :: ys) = ⟨x, y⟩ :: chainOf (y :: ys) := by
        simp [chainOf]
      rw [hcons]
      cases ys with
      | nil => rfl
      | cons z zs =>
        have hcons2 : chainOf (y :: z :: zs) = ⟨y, z⟩ :: chainOf (z :: zs) := by
          simp [chainOf]
        rw [hcons2]
        rw [hcons2] at ih
        simpa [isChain] using ih

theorem getElem_idx_eq {α : Type} (l : List α) (i j : Nat) (hi : i < l.length)
    (hj : j < l.length) (h : i = j) : l[i] = l[j] := by
  subst h; rfl

/-- Loop invariant for `OrderCNAMEs` run on a permutation of the chain `ch`:
the first `n` elements of the working list are the contiguous slice of `ch`
starting at `p`, and the working list is a permutation of `ch`. -/
structure OrdInv (ch a : List CNAMERec) (n p : Nat) : Prop where
  perm : a.Perm ch
  one_le : 1 ≤ n
  bound : p + n ≤ ch.length
  block : a.take n = (ch.drop p).take n

theorem OrdInv.len_eq {ch a : List CNAMERec} {n p : Nat} (inv : OrdInv ch a n p) :
    a.length = ch.length := inv.perm.length_eq

theorem OrdInv.blockElem {ch a : List CNAMERec} {n p : Nat} (inv : OrdInv ch a n p)
    (t : Nat) (ht : t < n) (h1 : t < a.length) (h2 : p + t < ch.length) :
    a[t] = ch[p + t] := by
  have hq := congrArg (fun l => l[t]?) inv.block
  simp only at hq
  have ht1 : t < (a.take n).length := by simp; omega
  have ht2 : t < ((List.drop p ch).take n).length := by simp; omega
  rw [List.getElem?_eq_getElem ht1, List.getElem?_eq_getElem ht2] at hq
  have hval := Option.some.inj hq
  rwa [List.getElem_take, List.getElem_take, List.getElem_drop] at hval

theorem OrdInv.outside {ch a : List CNAMERec} {n p : Nat} (inv : OrdInv ch a n p)
    (hc : ch.Nodup) (i : Nat) (hi : n ≤ i) (hlen : i < a.length) :
    ∃ j, ∃ hj : j < ch.length, a[i] = ch[j] ∧ (j < p ∨ p + n ≤ j) := by
  have hmem : a[i] ∈ ch := inv.perm.mem_iff.mp (List.mem_iff_getElem.mpr ⟨i, hlen, rfl⟩)
  obtain ⟨j, hj, hcj⟩ := List.mem_iff_getElem.mp hmem
  refine ⟨j, hj, hcj.symm, ?_⟩
  by_contra hcon
  push_neg at hcon
  obtain ⟨h1, h2⟩ := hcon
  have ht : j - p < n := by omega
  have hlt1 : j - p < a.length := by omega
  have hlt2 : p + (j - p) < ch.length := by omega
  have hbe := inv.blockElem (j - p) ht hlt1 hlt2
  have hcc : ch[p + (j - p)] = ch[j] := getElem_idx_eq ch _ _ hlt2 hj (by omega)
  have haa : a[j - p] = a[i] := by rw [hbe, hcc, hcj]
  have hand : a.Nodup := inv.perm.nodup_iff.mpr hc
  have := (List.Nodup.getElem_inj_iff hand).mp haa
  omega

theorem chain_target_eq_name_iff (xs : List String) (hnd : xs.Nodup) (j k : Nat)
    (hj : j < (chainOf xs).length) (hk : k < (chainOf xs).length) :
    ((chainOf xs)[j].target = (chainOf xs)[k].name) ↔ j + 1 = k := by
  have hl := chainOf_length xs
  have hj1 : j < xs.length := by omega
  have hj2 : j + 1 < xs.length := by omega
  have hk1 : k < xs.length := by omega
  have hk2 : k + 1 < xs.length := by omega
  rw [chainOf_getElem xs j hj hj1 hj2, chainOf_getElem xs k hk hk1 hk2]
  simp only
  exact List.Nodup.getElem_inj_iff hnd

/-- No element at index `t ≥ i` can be attached to either end of the sorted
prefix: both loop conditions are false there. -/
def NoExt (a : List CNAMERec) (n i : Nat) : Prop :=
  ∀ t, i ≤ t → t < a.length →
    ¬((a.getD t ⟨"", ""⟩).target = (a.getD 0 ⟨"", ""⟩).name) ∧
    ¬((a.getD (n - 1) ⟨"", ""⟩).target = (a.getD t ⟨"", ""⟩).name)

theorem innerLoop_stop (a : List CNAMERec) (n i : Nat) (flag : Bool)
    (hi : ¬ i < a.length) : innerLoop a n i flag = some (a, n, flag) := by
  rw [innerLoop, if_neg hi]

theorem innerLoop_step_pos (a : List CNAMERec) (n i : Nat) (flag : Bool)
    (hi : i < a.length)
    (hc1 : (a.getD i ⟨"", ""⟩).target = (a.getD 0 ⟨"", ""⟩).name) :
    innerLoop a n i flag =
      if n < (moveFront a i).length then
        if ((moveFront a i).getD n ⟨"", ""⟩).target =
            ((moveFront a i).getD i ⟨"", ""⟩).name then
          if n + 1 < (moveFront a i).length then
            innerLoop (swapIdx (moveFront a i) (n + 1) i) (n + 2) (i + 1) true
          else none
        else innerLoop (moveFront a i) (n + 1) (i + 1) true
      else none := by
  rw [innerLoop, if_pos hi]
  simp only [if_pos hc1, Nat.add_sub_cancel]

theorem innerLoop_step_neg (a : List CNAMERec) (n i : Nat) (flag : Bool)
    (hi : i < a.length)
    (hc1 : ¬ (a.getD i ⟨"", ""⟩).target = (a.getD 0 ⟨"", ""⟩).name) :
    innerLoop a n i flag =
      if n - 1 < a.length then
        if (a.getD (n - 1) ⟨"", ""⟩).target = (a.getD i ⟨"", ""⟩).name then
          if n < a.length then innerLoop (swapIdx a n i) (n + 1) (i + 1) true
          else none
        else innerLoop a n (i + 1) flag
      else none := by
  rw [innerLoop, if_pos hi]
  simp only [if_neg hc1]

theorem innerLoop_chain (xs : List String) (hnd : xs.Nodup) :
    ∀ fuel i a n p flag, a.length ≤ i + fuel →
    OrdInv (chainOf xs) a n p →
    ∃ a2 n2 p2 flag2, innerLoop a n i flag = some (a2, n2, flag2) ∧
      OrdInv (chainOf xs) a2 n2 p2 ∧ n ≤ n2 ∧
      (flag2 = true ↔ (flag = true ∨ n < n2)) ∧
      (n2 = n → (a2 = a ∧ flag2 = flag ∧ NoExt a n i)) := by
  intro fuel
  induction fuel with
  | zero =>
    intro i a n p flag hfuel inv
    have hi : ¬ i < a.length := by omega
    exact ⟨a, n, p, flag, innerLoop_stop a n i flag hi, inv, le_refl n,
      by simp, fun _ => ⟨rfl, rfl, fun t ht1 ht2 =>
        absurd (by omega : i < a.length) hi⟩⟩
  | succ fuel ih =>
    intro i a n p flag hfuel inv
    by_cases hi : i < a.length
    case neg =>
      exact ⟨a, n, p, flag, innerLoop_stop a n i flag hi, inv, le_refl n,
        by simp, fun _ => ⟨rfl, rfl, fun t ht1 ht2 =>
          absurd (by omega : i < a.length) hi⟩⟩
    case pos =>
    have hlen := inv.len_eq
    have hcnd : (chainOf xs).Nodup := chainOf_nodup xs hnd
    have h0 : 0 < a.length := by omega
    have hone := inv.one_le
    have hb := inv.bound
    have hA0 : a.getD 0 ⟨"", ""⟩ = a[0] := List.getD_eq_getElem a _ h0
    have hAi : a.getD i ⟨"", ""⟩ = a[i] := List.getD_eq_getElem a _ hi
    have ha0 : a[0] = (chainOf xs)[p] := by
      have h := inv.blockElem 0 (by omega) h0 (by omega)
      simpa using h
    by_cases hin : i < n
    · -- the scanned element is already inside the sorted block: no condition fires
      have hai : a[i] = (chainOf xs)[p + i] := inv.blockElem i hin hi (by omega)
      have hc1 : ¬ (a.getD i ⟨"", ""⟩).target = (a.getD 0 ⟨"", ""⟩).name := by
        rw [hAi, hA0, hai, ha0,
          chain_target_eq_name_iff xs hnd _ _ (by omega) (by omega)]
        omega
      rw [innerLoop_step_neg a n i flag hi hc1]
      have hg1 : n - 1 < a.length := by omega
      rw [if_pos hg1]
      have hAn : a.getD (n - 1) ⟨"", ""⟩ = a[n - 1] := List.getD_eq_getElem a _ hg1
      have han : a[n - 1] = (chainOf xs)[p + (n - 1)] :=
        inv.blockElem (n - 1) (by omega) hg1 (by omega)
      have hc2 : ¬ (a.getD (n - 1) ⟨"", ""⟩).target = (a.getD i ⟨"", ""⟩).name := by
        rw [hAn, hAi, han, hai,
          chain_target_eq_name_iff xs hnd _ _ (by omega) (by omega)]
        omega
      rw [if_neg hc2]
      obtain ⟨a2, n2, p2, flag2, heq, inv2, hle, hiff, hfix⟩ :=
        ih (i + 1) a n p flag (by omega) inv
      refine ⟨a2, n2, p2, flag2, heq, inv2, hle, hiff, ?_⟩
      intro hn2
      obtain ⟨he1, he2, hnoe⟩ := hfix hn2
      refine ⟨he1, he2, ?_⟩
      intro t ht1 ht2
      rcases Nat.eq_or_lt_of_le ht1 with h | h
      · subst h
        exact ⟨hc1, hc2⟩
      · exact hnoe t (by omega) ht2
    · push_neg at hin
      obtain ⟨j, hj, haj, hout⟩ := inv.outside hcnd i hin hi
      by_cases hc1 : (a.getD i ⟨"", ""⟩).target = (a.getD 0 ⟨"", ""⟩).name
      · -- the scanned element extends the block at the front
        have hjp : j + 1 = p := by
          have h := hc1
          rw [hAi, hA0, haj, ha0] at h
          exact (chain_target_eq_name_iff xs hnd j p hj (by omega)).mp h
        have hp1 : 1 ≤ p := by omega
        have hnm : n < a.length := by omega
        rw [innerLoop_step_pos a n i flag hi hc1]
        have hg1 : n < (moveFront a i).length := by simp; omega
        rw [if_pos hg1]
        have inv1 : OrdInv (chainOf xs) (moveFront a i) (n + 1) (p - 1) := by
          refine ⟨(moveFront_perm a i hi).trans inv.perm, by omega, by omega, ?_⟩
          rw [moveFront_take a i n hin hi]
          have hps : p - 1 + 1 = p := by omega
          have hdrop : List.drop (p - 1) (chainOf xs) =
              (chainOf xs)[p - 1] :: List.drop p (chainOf xs) := by
            have hdd : List.drop (p - 1 + 1) (chainOf xs) =
                List.drop p (chainOf xs) := by rw [hps]
            have hcons := @List.drop_eq_getElem_cons _ (p - 1) (chainOf xs)
              (by omega)
            rw [hdd] at hcons
            exact hcons
          rw [hdrop, List.take_succ_cons]
          congr 1
          · rw [haj]
            exact getElem_idx_eq _ _ _ hj (by omega) (by omega)
          · exact inv.block
        have hA1n : (moveFront a i).getD n ⟨"", ""⟩ = (chainOf xs)[(p - 1) + n] := by
          rw [List.getD_eq_getElem _ _ hg1]
          exact inv1.blockElem n (by omega) hg1 (by omega)
        rcases Nat.eq_or_lt_of_le hin with hieq | higt
        · -- i = n: the element now at position i is the block's last; no append
          have hA1i : (moveFront a i).getD i ⟨"", ""⟩ = (chainOf xs)[(p - 1) + n] := by
            rw [← hieq] at hA1n ⊢
            exact hA1n
          have hc2 : ¬ ((moveFront a i).getD n ⟨"", ""⟩).target =
              ((moveFront a i).getD i ⟨"", ""⟩).name := by
            rw [hA1n, hA1i,
              chain_target_eq_name_iff xs hnd _ _ (by omega) (by omega)]
            omega
          rw [if_neg hc2]
          obtain ⟨a2, n2, p2, flag2, heq, inv2, hle, hiff, hfix⟩ :=
            ih (i + 1) (moveFront a i) (n + 1) (p - 1) true (by simp; omega) inv1
          exact ⟨a2, n2, p2, flag2, heq, inv2, by omega,
            ⟨fun _ => Or.inr (by omega), fun _ => hiff.mpr (Or.inl rfl)⟩,
            fun hn2 => absurd hn2 (by omega)⟩
        · -- i > n: position i now holds the old a[i-1], an element outside the block
          have hi1 : 1 ≤ i := by omega
          have higl : i < (moveFront a i).length := by simp; omega
          have hmfi : (moveFront a i)[i] = a[i - 1] :=
            moveFront_getElem_self a i hi1 hi higl
          have hA1i : (moveFront a i).getD i ⟨"", ""⟩ = a[i - 1] := by
            rw [List.getD_eq_getElem _ _ higl]
            exact hmfi
          obtain ⟨j2, hj2, haj2, hout2⟩ := inv.outside hcnd (i - 1) (by omega) (by omega)
          by_cases hc2 : ((moveFront a i).getD n ⟨"", ""⟩).target =
              ((moveFront a i).getD i ⟨"", ""⟩).name
          · -- append also fires in the same iteration
            have hjq : (p - 1) + n + 1 = j2 := by
              have h := hc2
              rw [hA1n, hA1i, haj2] at h
              exact (chain_target_eq_name_iff xs hnd _ _ (by omega) hj2).mp h
            rw [if_pos hc2]
            have hg2 : n + 1 < (moveFront a i).length := by simp; omega
            rw [if_pos hg2]
            have hswb1 : n + 1 < (moveFront a i).length := hg2
            have inv2s : OrdInv (chainOf xs)
                (swapIdx (moveFront a i) (n + 1) i) (n + 2) (p - 1) := by
              refine ⟨(swapIdx_perm _ _ _ hswb1 higl).trans inv1.perm,
                by omega, by omega, ?_⟩
              rw [swapIdx_take _ _ _ (by omega) hswb1 higl]
              have hTk : (List.drop (p - 1) (chainOf xs)).take (n + 2) =
                  (List.drop (p - 1) (chainOf xs)).take (n + 1) ++
                    [(chainOf xs)[(p - 1) + (n + 1)]] := by
                rw [List.take_succ]
                congr 1
                rw [List.getElem?_eq_getElem (by simp; omega), List.getElem_drop]
                rfl
              rw [hTk]
              congr 1
              · exact inv1.block
              · congr 1
                rw [hmfi, haj2]
                exact getElem_idx_eq _ _ _ hj2 (by omega) (by omega)
            obtain ⟨a2, n2, p2, flag2, heq, inv2, hle, hiff, hfix⟩ :=
              ih (i + 1) (swapIdx (moveFront a i) (n + 1) i) (n + 2) (p - 1) true
                (by simp; omega) inv2s
            exact ⟨a2, n2, p2, flag2, heq, inv2, by omega,
              ⟨fun _ => Or.inr (by omega), fun _ => hiff.mpr (Or.inl rfl)⟩,
              fun hn2 => absurd hn2 (by omega)⟩
          · rw [if_neg hc2]
            obtain ⟨a2, n2, p2, flag2, heq, inv2, hle, hiff, hfix⟩ :=
              ih (i + 1) (moveFront a i) (n + 1) (p - 1) true (by simp; omega) inv1
            exact ⟨a2, n2, p2, flag2, heq, inv2, by omega,
              ⟨fun _ => Or.inr (by omega), fun _ => hiff.mpr (Or.inl rfl)⟩,
              fun hn2 => absurd hn2 (by omega)⟩
      · -- no prepend; the element may extend the block at the back
        rw [innerLoop_step_neg a n i flag hi hc1]
        have hg1 : n - 1 < a.length := by omega
        rw [if_pos hg1]
        have hAn : a.getD (n - 1) ⟨"", ""⟩ = a[n - 1] := List.getD_eq_getElem a _ hg1
        have han : a[n - 1] = (chainOf xs)[p + (n - 1)] :=
          inv.blockElem (n - 1) (by omega) hg1 (by omega)
        by_cases hc2 : (a.getD (n - 1) ⟨"", ""⟩).target = (a.getD i ⟨"", ""⟩).name
        · have hjq : p + (n - 1) + 1 = j := by
            have h := hc2
            rw [hAn, hAi, han, haj] at h
            exact (chain_target_eq_name_iff xs hnd _ _ (by omega) hj).mp h
          have hjpn : j = p + n := by omega
          have hg2 : n < a.length := by omega
          rw [if_pos hc2, if_pos hg2]
          have inv2s : OrdInv (chainOf xs) (swapIdx a n i) (n + 1) p := by
            refine ⟨(swapIdx_perm a n i hg2 hi).trans inv.perm,
              by omega, by omega, ?_⟩
            rw [swapIdx_take a n i hin hg2 hi]
            have hTk : (List.drop p (chainOf xs)).take (n + 1) =
                (List.drop p (chainOf xs)).take n ++ [(chainOf xs)[p + n]] := by
              rw [List.take_succ]
              congr 1
              rw [List.getElem?_eq_getElem (by simp; omega), List.getElem_drop]
              rfl
            rw [hTk]
            congr 1
            · exact inv.block
            · congr 1
              rw [haj]
              exact getElem_idx_eq _ _ _ hj (by omega) (by omega)
          obtain ⟨a2, n2, p2, flag2, heq, inv2, hle, hiff, hfix⟩ :=
            ih (i + 1) (swapIdx a n i) (n + 1) p true (by simp; omega) inv2s
          exact ⟨a2, n2, p2, flag2, heq, inv2, by omega,
            ⟨fun _ => Or.inr (by omega), fun _ => hiff.mpr (Or.inl rfl)⟩,
            fun hn2 => absurd hn2 (by omega)⟩
        · rw [if_neg hc2]
          obtain ⟨a2, n2, p2, flag2, heq, inv2, hle, hiff, hfix⟩ :=
            ih (i + 1) a n p flag (by omega) inv
          refine ⟨a2, n2, p2, flag2, heq, inv2, hle, hiff, ?_⟩
          intro hn2
          obtain ⟨he1, he2, hnoe⟩ := hfix hn2
          refine ⟨he1, he2, ?_⟩
          intro t ht1 ht2
          rcases Nat.eq_or_lt_of_le ht1 with h | h
          · subst h
            exact ⟨hc1, hc2⟩
          · exact hnoe t (by omega) ht2

theorem outerLoop_succ (a : List CNAMERec) (n fuel : Nat) :
    outerLoop a n (fuel + 1) =
      match innerLoop a n n false with
      | none => none
      | some (a1, n1, flag1) =>
        if flag1 then outerLoop a1 n1 fuel else some (a1, n1) := rfl

theorem outerLoop_chain (xs : List String) (hnd : xs.Nodup) :
    ∀ fuel a n p, OrdInv (chainOf xs) a n p →
    (chainOf xs).length - n + 1 ≤ fuel →
    outerLoop a n fuel = some (chainOf xs, (chainOf xs).length) := by
  intro fuel
  induction fuel with
  | zero =>
    intro a n p inv hfuel
    omega
  | succ fuel ih =>
    intro a n p inv hfuel
    have hcnd : (chainOf xs).Nodup := chainOf_nodup xs hnd
    have hlen := inv.len_eq
    have hone := inv.one_le
    have hb := inv.bound
    obtain ⟨a2, n2, p2, flag2, heq, inv2, hle, hiff, hfix⟩ :=
      innerLoop_chain xs hnd a.length n a n p false (by omega) inv
    rw [outerLoop_succ]
    simp only [heq]
    by_cases hf : flag2 = true
    · rw [if_pos hf]
      have hlt : n < n2 := by
        rcases hiff.mp hf with h | h
        · exact absurd h (by simp)
        · exact h
      have hn2 : n2 ≤ (chainOf xs).length := by
        have := inv2.bound
        omega
      exact ih a2 n2 p2 inv2 (by omega)
    · have hf2 : flag2 = false := by
        cases flag2
        · rfl
        · exact absurd rfl hf
      rw [hf2, if_neg (by simp)]
      have hn2 : n2 = n := by
        rcases Nat.eq_or_lt_of_le hle with h | h
        · omega
        · exact absurd (hiff.mpr (Or.inr h)) (by simp [hf2])
      obtain ⟨hea, _, hnoe⟩ := hfix hn2
      -- the block is maximal, hence n = chain length and a = chain
      have hnfull : n = (chainOf xs).length := by
        by_contra hcon
        have hnlt : n < (chainOf xs).length := by omega
        rcases Nat.eq_or_lt_of_le hb with hpe | hplt
        · -- the block ends at the chain's end, so a predecessor exists
          have hp1 : 1 ≤ p := by omega
          have hjm : p - 1 < (chainOf xs).length := by omega
          have hmem : (chainOf xs)[p - 1] ∈ a :=
            inv.perm.mem_iff.mpr (List.mem_iff_getElem.mpr ⟨p - 1, hjm, rfl⟩)
          obtain ⟨t, ht, hat⟩ := List.mem_iff_getElem.mp hmem
          have htn : n ≤ t := by
            by_contra htc
            push_neg at htc
            have hbe := inv.blockElem t htc ht (by omega)
            rw [hbe] at hat
            have := (List.Nodup.getElem_inj_iff hcnd).mp hat
            omega
          have hcond := (hnoe t htn ht).1
          apply hcond
          rw [List.getD_eq_getElem a _ ht, List.getD_eq_getElem a _ (by omega), hat]
          have ha0 : a[0] = (chainOf xs)[p] := by
            have h := inv.blockElem 0 (by omega) (by omega) (by omega)
            simpa using h
          rw [ha0]
          exact (chain_target_eq_name_iff xs hnd (p - 1) p hjm (by omega)).mpr
            (by omega)
        · -- a successor record exists
          have hjm : p + n < (chainOf xs).length := hplt
          have hmem : (chainOf xs)[p + n] ∈ a :=
            inv.perm.mem_iff.mpr (List.mem_iff_getElem.mpr ⟨p + n, hjm, rfl⟩)
          obtain ⟨t, ht, hat⟩ := List.mem_iff_getElem.mp hmem
          have htn : n ≤ t := by
            by_contra htc
            push_neg at htc
            have hbe := inv.blockElem t htc ht (by omega)
            rw [hbe] at hat
            have := (List.Nodup.getElem_inj_iff hcnd).mp hat
            omega
          have hcond := (hnoe t htn ht).2
          apply hcond
          rw [List.getD_eq_getElem a _ ht, List.getD_eq_getElem a _ (by omega), hat]
          have han : a[n - 1] = (chainOf xs)[p + (n - 1)] :=
            inv.blockElem (n - 1) (by omega) (by omega) (by omega)
          rw [han]
          exact (chain_target_eq_name_iff xs hnd (p + (n - 1)) (p + n)
            (by omega) hjm).mpr (by omega)
      have hp0 : p = 0 := by omega
      have haeq : a = chainOf xs := by
        have hblock := inv.block
        rw [hp0, List.drop_zero] at hblock
        have hL : a.take n = a := by
          rw [hnfull, ← hlen]
          exact List.take_length a
        have hR : (chainOf xs).take n = chainOf xs := by
          rw [hnfull]
          exact List.take_length _
        rw [hL, hR] at hblock
        exact hblock
      rw [hea, haeq, hn2, hnfull]

theorem OrderCNAMEs_perm_chain (xs : List String) (hnd : xs.Nodup)
    (hlen2 : 2 ≤ xs.length) (a : List CNAMERec)
    (ha : a.Perm (chainOf xs)) :
    OrderCNAMEs a = some (true, chainOf xs) := by
  have hcl : (chainOf xs).length = xs.length - 1 := chainOf_length xs
  have hal : a.length = (chainOf xs).length := ha.length_eq
  have hne : ¬ a.length = 0 := by omega
  rw [OrderCNAMEs, if_neg hne]
  have h0 : 0 < a.length := by omega
  have hmem : a[0] ∈ chainOf xs :=
    ha.mem_iff.mp (List.mem_iff_getElem.mpr ⟨0, h0, rfl⟩)
  obtain ⟨p0, hp0, hap0⟩ := List.mem_iff_getElem.mp hmem
  have inv0 : OrdInv (chainOf xs) a 1 p0 := by
    refine ⟨ha, le_refl 1, by omega, ?_⟩
    have e1 : a.take 1 = [a[0]] := by
      cases a with
      | nil => simp at h0
      | cons x t => simp
    have e2 : (List.drop p0 (chainOf xs)).take 1 = [(chainOf xs)[p0]] := by
      rw [List.drop_eq_getElem_cons hp0]
      rfl
    rw [e1, e2, hap0]
  rw [outerLoop_chain xs hnd (a.length + 2) a 1 p0 inv0 (by omega)]
  simp

theorem innerLoop_basic :
    ∀ fuel i a n flag, a.length ≤ i + fuel → n ≤ a.length →
    ∀ a2 n2 flag2, innerLoop a n i flag = some (a2, n2, flag2) →
      a2.length = a.length ∧ n ≤ n2 ∧ n2 ≤ a.length ∧
      (flag2 = true ↔ (flag = true ∨ n < n2)) := by
  intro fuel
  induction fuel with
  | zero =>
    intro i a n flag hfuel hn a2 n2 flag2 heq
    have hi : ¬ i < a.length := by omega
    rw [innerLoop_stop a n i flag hi] at heq
    obtain ⟨rfl, rfl, rfl⟩ : a = a2 ∧ n = n2 ∧ flag = flag2 := by
      have h1 := congrArg (fun o => o.map Prod.fst) heq
      have h2 := congrArg (fun o => o.map (fun x => x.2.1)) heq
      have h3 := congrArg (fun o => o.map (fun x => x.2.2)) heq
      simp at h1 h2 h3
      exact ⟨h1, h2, h3⟩
    exact ⟨rfl, le_refl n, hn, by simp⟩
  | succ fuel ih =>
    intro i a n flag hfuel hn a2 n2 flag2 heq
    by_cases hi : i < a.length
    case neg =>
      rw [innerLoop_stop a n i flag hi] at heq
      obtain ⟨rfl, rfl, rfl⟩ : a = a2 ∧ n = n2 ∧ flag = flag2 := by
        have h1 := congrArg (fun o => o.map Prod.fst) heq
        have h2 := congrArg (fun o => o.map (fun x => x.2.1)) heq
        have h3 := congrArg (fun o => o.map (fun x => x.2.2)) heq
        simp at h1 h2 h3
        exact ⟨h1, h2, h3⟩
      exact ⟨rfl, le_refl n, hn, by simp⟩
    case pos =>
    by_cases hc1 : (a.getD i ⟨"", ""⟩).target = (a.getD 0 ⟨"", ""⟩).name
    · rw [innerLoop_step_pos a n i flag hi hc1] at heq
      by_cases hg1 : n < (moveFront a i).length
      case neg => rw [if_neg hg1] at heq; exact absurd heq (by simp)
      case pos =>
      rw [if_pos hg1] at heq
      simp only [moveFront_length] at hg1
      by_cases hc2 : ((moveFront a i).getD n ⟨"", ""⟩).target =
          ((moveFront a i).getD i ⟨"", ""⟩).name
      · rw [if_pos hc2] at heq
        by_cases hg2 : n + 1 < (moveFront a i).length
        case neg => rw [if_neg hg2] at heq; exact absurd heq (by simp)
        case pos =>
        rw [if_pos hg2] at heq
        simp only [moveFront_length] at hg2
        obtain ⟨hl, h1, h2, h3⟩ := ih (i + 1) _ (n + 2) true
          (by simp; omega) (by simp; omega) a2 n2 flag2 heq
        simp only [swapIdx_length, moveFront_length] at hl
        refine ⟨hl, by omega, by simp [swapIdx_length, moveFront_length] at h2; omega, ?_⟩
        have hf2 : flag2 = true := h3.mpr (Or.inl rfl)
        exact ⟨fun _ => Or.inr (by omega), fun _ => hf2⟩
      · rw [if_neg hc2] at heq
        obtain ⟨hl, h1, h2, h3⟩ := ih (i + 1) _ (n + 1) true
          (by simp; omega) (by simp; omega) a2 n2 flag2 heq
        simp only [moveFront_length] at hl h2
        refine ⟨hl, by omega, by omega, ?_⟩
        have hf2 : flag2 = true := h3.mpr (Or.inl rfl)
        exact ⟨fun _ => Or.inr (by omega), fun _ => hf2⟩
    · rw [innerLoop_step_neg a n i flag hi hc1] at heq
      rw [if_pos (by omega : n - 1 < a.length)] at heq
      by_cases hc2 : (a.getD (n - 1) ⟨"", ""⟩).target = (a.getD i ⟨"", ""⟩).name
      · rw [if_pos hc2] at heq
        by_cases hg2 : n < a.length
        case neg => rw [if_neg hg2] at heq; exact absurd heq (by simp)
        case pos =>
        rw [if_pos hg2] at heq
        obtain ⟨hl, h1, h2, h3⟩ := ih (i + 1) _ (n + 1) true
          (by simp; omega) (by simp; omega) a2 n2 flag2 heq
        simp only [swapIdx_length] at hl h2
        refine ⟨hl, by omega, by omega, ?_⟩
        have hf2 : flag2 = true := h3.mpr (Or.inl rfl)
        exact ⟨fun _ => Or.inr (by omega), fun _ => hf2⟩
      · rw [if_neg hc2] at heq
        exact ih (i + 1) a n flag (by omega) hn a2 n2 flag2 heq

theorem outerLoop_fuel_step :
    ∀ fuel a n, 1 ≤ n → n ≤ a.length → a.length - n + 1 ≤ fuel →
    outerLoop a n (fuel + 1) = outerLoop a n fuel := by
  intro fuel
  induction fuel with
  | zero => intro a n h1 h2 h3; omega
  | succ fuel ih =>
    intro a n h1 h2 h3
    rw [outerLoop_succ a n (fuel + 1), outerLoop_succ a n fuel]
    cases heq : innerLoop a n n false with
    | none => rfl
    | some r =>
      obtain ⟨a1, n1, flag1⟩ := r
      obtain ⟨hl, hle, hub, hiff⟩ :=
        innerLoop_basic a.length n a n false (by omega) h2 a1 n1 flag1 heq
      cases flag1 with
      | false => simp
      | true =>
        simp only [if_pos rfl]
        have hlt : n < n1 := by
          rcases hiff.mp rfl with h | h
          · exact absurd h (by simp)
          · exact h
        exact ih a1 n1 (by omega) (by omega) (by omega)

theorem outerLoop_fuel_ge (a : List CNAMERec) (n : Nat) (h1 : 1 ≤ n)
    (h2 : n ≤ a.length) :
    ∀ k fuel, a.length - n + 1 ≤ fuel →
    outerLoop a n (fuel + k) = outerLoop a n fuel := by
  intro k
  induction k with
  | zero => intro fuel _; rfl
  | succ k ih =>
    intro fuel hf
    have e1 : fuel + (k + 1) = (fuel + k) + 1 := by omega
    rw [e1, outerLoop_fuel_step (fuel + k) a n h1 h2 (by omega), ih fuel hf]

/-- The fuel `a.length + 2` used in `OrderCNAMEs` is exact: the Go loop never
needs more passes, so giving the fuelled model any larger fuel yields the
same result.  Hence `none` results model Go panics, not fuel exhaustion. -/
theorem OrderCNAMEs_fuel_exact (a : List CNAMERec) (h : 1 ≤ a.length)
    (f : Nat) (hf : a.length + 2 ≤ f) :
    outerLoop a 1 f = outerLoop a 1 (a.length + 2) := by
  have e1 : f = (a.length + 2) + (f - (a.length + 2)) := by omega
  rw [e1]
  exact outerLoop_fuel_ge a 1 (le_refl 1) h _ _ (by omega)

/-- C2 (counterexample): this three-record list is itself a valid chain
(`a. → b. → a. → c.`, adjacent targets match owners) with no duplicate
records, yet `OrderCNAMEs` returns false on it: with repeated node names
the greedy prepend absorbs the wrong record. -/
theorem OrderCNAMEs_valid_chain_counterexample :
    isChain [(⟨"a.", "b."⟩ : CNAMERec), ⟨"b.", "a."⟩, ⟨"a.", "c."⟩] = true ∧
    ([(⟨"a.", "b."⟩ : CNAMERec), ⟨"b.", "a."⟩, ⟨"a.", "c."⟩]).Nodup ∧
    OrderCNAMEs [(⟨"a.", "b."⟩ : CNAMERec), ⟨"b.", "a."⟩, ⟨"a.", "c."⟩] =
      some (false, [⟨"b.", "a."⟩, ⟨"a.", "b."⟩, ⟨"a.", "c."⟩]) := by
  refine ⟨by decide, by decide, ?_⟩
  simp [OrderCNAMEs, outerLoop, innerLoop, moveFront, swapIdx]

/-- C2 (amended): for every permutation of a valid chain whose node names
(the owners together with the final target) are pairwise distinct,
`OrderCNAMEs` returns true and rearranges the list into the chain, so
element `i`'s target equals element `i+1`'s owner name. -/
theorem OrderCNAMEs_orders_distinct_name_chains (xs : List String)
    (hnd : xs.Nodup) (hlen : 2 ≤ xs.length) (a : List CNAMERec)
    (ha : a.Perm (chainOf xs)) :
    OrderCNAMEs a = some (true, chainOf xs) ∧ isChain (chainOf xs) = true :=
  ⟨OrderCNAMEs_perm_chain xs hnd hlen a ha, isChain_chainOf xs⟩

/-- C2 (witness): the amended theorem applied to a two-record permutation
of the chain over the distinct names `a.`, `b.`, `c.`. -/
theorem OrderCNAMEs_orders_witness :
    OrderCNAMEs [(⟨"b.", "c."⟩ : CNAMERec), ⟨"a.", "b."⟩] =
      some (true, chainOf ["a.", "b.", "c."]) ∧
    isChain (chainOf ["a.", "b.", "c."]) = true :=
  OrderCNAMEs_orders_distinct_name_chains ["a.", "b.", "c."] (by decide)
    (by decide) _ (by decide)

/-- C3: this list cannot be arranged into a single chain, and instead of
returning false `OrderCNAMEs` panics: after the self-loop record `d. → d.`
is absorbed twice, the code evaluates `a[n]` with `n = len(a)` — an index
out of range, contradicting the function's own documentation that it
returns a boolean verdict.  `none` is the model's panic value. -/
theorem OrderCNAMEs_panics_on_unchainable :
    chainable [(⟨"d.", "d."⟩ : CNAMERec), ⟨"c.", "d."⟩, ⟨"a.", "b."⟩] = false ∧
    OrderCNAMEs [(⟨"d.", "d."⟩ : CNAMERec), ⟨"c.", "d."⟩, ⟨"a.", "b."⟩] = none :=
  ⟨by decide, by simp [OrderCNAMEs, outerLoop, innerLoop, moveFront, swapIdx]⟩

/-- Typed resource-record data, covering the `github.com/miekg/dns` record
types the library reads.  For `dns.A` / `dns.AAAA`, the payload is the parsed
address (`none` models a byte slice `netip.AddrFromSlice` rejects). -/
inductive RData where
  | a (addr : Option Nat)
  | aaaa (addr : Option Nat)
  | cname (target : String)
  | nsr (nsname : String)
  | ptr (ptrname : String)
  | srv (priority weight port : Nat) (target : String)
  | txt (strings : List String)
deriving DecidableEq, Repr

/-- The wire type code of a record (`Hdr.Rrtype`); for wire-parsed messages it
coincides with the record's dynamic Go type. -/
def RData.rrtype : RData → Nat
  | .a _ => 1
  | .nsr _ => 2
  | .cname _ => 5
  | .ptr _ => 12
  | .txt _ => 16
  | .aaaa _ => 28
  | .srv _ _ _ _ => 33

/-- A resource record: owner name (`Hdr.Name`) plus typed data. -/
structure RR where
  name : String
  rdata : RData
deriving DecidableEq, Repr

def RR.rrtype (rr : RR) : Nat := rr.rdata.rrtype

/-- A DNS response message, reduced to the fields the library reads: the
response code (`0` = success), the answer section and the truncation flag. -/
structure Msg where
  rcode : Nat
  answer : List RR
  truncated : Bool
deriving DecidableEq, Repr

/-- The failure kinds of the `DNSErr` enumeration (src/dnsclient.go lines
34-40 and src/unnamed/part_009 lines 30-39). -/
inductive DNSErrKind where
  | rcodeNotSuccess
  | missingAnswer
  | invalidAnswer
  | invalidCNAMEChain
  | maxCNAMEs
  | badFormatAnswer
deriving DecidableEq, Repr

/-- An error returned by the resolution engine: either a network-level error
propagated unchanged from the transport (opaque code), or a classified
`DNSError` carrying the triggering response when one exists. -/
inductive QErr where
  | net (code : Nat)
  | dns (reason : DNSErrKind) (response : Option Msg)
deriving DecidableEq, Repr

deriving instance DecidableEq for Except

/-- A transport client as the resolution engine sees it: its `Config`
(only `MaxCNAMEs` is read by the engine) and its exchange primitive
(`Client.Query` in src/dnsclient.go; `Client.Exchange` in part_010),
modelled as a deterministic oracle from query name and type to a response
or a network error. -/
structure ClientM where
  maxCNAMEs : Nat
  query : String → Nat → Except Nat Msg

/-- Model of `dns.Fqdn`: append a trailing dot unless one is already present.
(`dns.IsFqdn` additionally treats a backslash-escaped final dot as absent; no
name in this development contains escapes, so the last-character test is
exact.) -/
def fqdn (s : String) : String :=
  if s.data.getLast? = some '.' then s else s ++ "."

/-- The lower-case helper `query` (src/dnsclient.go lines 79-88): one
exchange, turning a non-success response code into `RcodeNotSuccess`. -/
def queryAux (cl : ClientM) (name : String) (qtype : Nat) : Except QErr Msg :=
  match cl.query name qtype with
  | .error e => .error (.net e)
  | .ok resp =>
    if resp.rcode ≠ 0 then .error (.dns .rcodeNotSuccess (some resp))
    else .ok resp

/-- The answer-section scan of `Query` (src/dnsclient.go lines 124-134):
gather records of the requested type into `ans`, returning early (`none`)
on a record whose owner name equals the current query name — a direct hit. -/
def scanAnswer (qtype : Nat) (name : String) : List RR → List RR → Option (List RR)
  | [], ans => some ans
  | rr :: rest, ans =>
    if rr.rrtype = qtype then
      if rr.name = name then none
      else scanAnswer qtype name rest (ans ++ [rr])
    else scanAnswer qtype name rest ans

/-- `msgutil.CollectRRs[*dns.CNAME]` applied to an answer section: the CNAME
records, keeping owner name and target. -/
def CollectCNAMEs (rrs : List RR) : List CNAMERec :=
  rrs.filterMap fun rr =>
    match rr.rdata with
    | .cname t => some ⟨rr.name, t⟩
    | _ => none

/-- The body of the resolution engine's bounded loop
(`for i := 0; i <= config.MaxCNAMEs; i++` in src/dnsclient.go lines 117-170;
the same loop appears in part_009 lines 125-178 and part_010 lines 92-148,
keyed on the request's question name instead of a plain string).  The first
argument counts the remaining iterations; `count` counts the exchange calls
made so far; `lastResp` and `lastCnames` are the `resp` and `cnames`
variables that survive the loop for the post-loop error classification.
A `none` result propagates a panic inside `OrderCNAMEs`. -/
def QueryLoop (cl : ClientM) (qtype : Nat) :
    Nat → String → Nat → Option Msg → List CNAMERec →
    Option (Except QErr Msg × Nat)
  | 0, _, count, lastResp, lastCnames =>
    if lastCnames.length > 0 then
      some (.error (.dns .maxCNAMEs lastResp), count)
    else
      some (.error (.dns .missingAnswer lastResp), count)
  | iters + 1, name, count, _, _ =>
    match queryAux cl name qtype with
    | .error e => some (.error e, count + 1)
    | .ok resp =>
      match scanAnswer qtype name resp.answer [] with
      | none => some (.ok resp, count + 1)
      | some ans =>
        let cnames := CollectCNAMEs resp.answer
        if cnames.length = 0 then
          some (.error (.dns .missingAnswer (some resp)), count + 1)
        else
          match OrderCNAMEs cnames with
          | none => none
          | some (ordered, cnames2) =>
            if ordered = false then
              some (.error (.dns .invalidCNAMEChain (some resp)), count + 1)
            else if (cnames2.headD dummyCNAME).name ≠ name then
              some (.error (.dns .invalidCNAMEChain (some resp)), count + 1)
            else if ans.any fun rr => (cnames2.getLastD dummyCNAME).target = rr.name then
              some (.ok resp, count + 1)
            else if ans.length > 0 then
              some (.error (.dns .invalidAnswer (some resp)), count + 1)
            else
              QueryLoop cl qtype iters (fqdn (cnames2.getLastD dummyCNAME).target)
                (count + 1) (some resp) cnames2

/-- The resolution engine `Query` (src/dnsclient.go lines 110-177), paired
with the number of transport exchanges it performed.  `Lookup`
(part_009 line 187, part_010 line 159) builds the request for `dns.Fqdn name`
and runs the same loop, so this models both entry points. -/
def Query (cl : ClientM) (name : String) (qtype : Nat) :
    Option (Except QErr Msg × Nat) :=
  QueryLoop cl qtype (cl.maxCNAMEs + 1) (fqdn name) 0 none []

/-- Concrete test message: a success response whose only answer is a CNAME
owned by `alias.example.com.` — the C1 scenario's server response. -/
def exC1Msg : Msg :=
  ⟨0, [⟨"alias.example.com.", .cname "target.example.com."⟩], false⟩

/-- Client with `MaxCNAMEs = 0` whose transport always returns `exC1Msg`. -/
def exC1Client : ClientM := ⟨0, fun _ _ => .ok exC1Msg⟩

/-- The `i`-th name of a synthetic alias family: `s0`, `succ s0`, .... -/
def hopName (succ : String → String) (s0 : String) : Nat → String
  | 0 => s0
  | i + 1 => succ (hopName succ s0 i)

/-- A success response whose only answer is the CNAME `owner → target`. -/
def cnameMsg (owner target : String) : Msg := ⟨0, [⟨owner, .cname target⟩], false⟩

/-- A success response with a single type-A record owned by `owner`. -/
def directMsg (owner : String) : Msg := ⟨0, [⟨owner, .a (some 0)⟩], false⟩

/-- A server that requires exactly `k` alias hops before a direct answer:
it answers the `k`-th name of the family with a type-A record, and every
other name with a single CNAME to its successor. -/
def hopClient (maxC k : Nat) (succ : String → String) (s0 : String) : ClientM :=
  ⟨maxC, fun name _ =>
    .ok (if name = hopName succ s0 k then directMsg (hopName succ s0 k)
         else cnameMsg name (succ name))⟩

/-- `msgutil.CollectRRs[*dns.PTR]` on an answer section: owner name and
`Ptr` field of each PTR record. -/
def CollectPTRs (rrs : List RR) : List (String × String) :=
  rrs.filterMap fun rr =>
    match rr.rdata with
    | .ptr p => some (rr.name, p)
    | _ => none

/-- `msgutil.CollectRRs[*dns.SRV]` on an answer section. -/
def CollectSRVs (rrs : List RR) : List (String × Nat × Nat × Nat × String) :=
  rrs.filterMap fun rr =>
    match rr.rdata with
    | .srv pr w po t => some (rr.name, pr, w, po, t)
    | _ => none

/-- `msgutil.CollectRRs[*dns.TXT]` on an answer section. -/
def CollectTXTs (rrs : List RR) : List (String × List String) :=
  rrs.filterMap fun rr =>
    match rr.rdata with
    | .txt ss => some (rr.name, ss)
    | _ => none

/-- `msgutil.CollectRRs[*dns.A]` on an answer section: owner name plus the
(possibly unparseable) address payload. -/
def CollectAs (rrs : List RR) : List (String × Option Nat) :=
  rrs.filterMap fun rr =>
    match rr.rdata with
    | .a ad => some (rr.name, ad)
    | _ => none

/-- `msgutil.CollectRRs[*dns.AAAA]` on an answer section. -/
def CollectAAAAs (rrs : List RR) : List (String × Option Nat) :=
  rrs.filterMap fun rr =>
    match rr.rdata with
    | .aaaa ad => some (rr.name, ad)
    | _ => none

/-- `doPTRQuery` (src/unnamed/part_015 lines 15-21): a PTR query through the
resolution engine, collecting the PTR records of the answer. -/
def doPTRQuery (cl : ClientM) (domain : String) :
    Option (Except QErr (List (String × String))) :=
  match Query cl domain 12 with
  | none => none
  | some (.error e, _) => some (.error e)
  | some (.ok resp, _) => some (.ok (CollectPTRs resp.answer))

/-- `doPTRQuerySingleAnswer` (part_015 lines 23-29): `ptrs[0]` of the
collected records; indexing an empty slice is a Go panic (`none`). -/
def doPTRQuerySingleAnswer (cl : ClientM) (domain : String) :
    Option (Except QErr (String × String)) :=
  match doPTRQuery cl domain with
  | none => none
  | some (.error e) => some (.error e)
  | some (.ok ptrs) =>
    match ptrs.head? with
    | none => none
    | some p => some (.ok p)

/-- `doSRVQuery` (part_015 lines 50-56). -/
def doSRVQuery (cl : ClientM) (domain : String) :
    Option (Except QErr (List (String × Nat × Nat × Nat × String))) :=
  match Query cl domain 33 with
  | none => none
  | some (.error e, _) => some (.error e)
  | some (.ok resp, _) => some (.ok (CollectSRVs resp.answer))

/-- `doSRVQuerySingleAnswer` (part_015 lines 58-64): `srvs[0]`. -/
def doSRVQuerySingleAnswer (cl : ClientM) (domain : String) :
    Option (Except QErr (String × Nat × Nat × Nat × String)) :=
  match doSRVQuery cl domain with
  | none => none
  | some (.error e) => some (.error e)
  | some (.ok srvs) =>
    match srvs.head? with
    | none => none
    | some s => some (.ok s)

/-- `doTXTQuery` (part_015 lines 66-72). -/
def doTXTQuery (cl : ClientM) (domain : String) :
    Option (Except QErr (List (String × List String))) :=
  match Query cl domain 16 with
  | none => none
  | some (.error e, _) => some (.error e)
  | some (.ok resp, _) => some (.ok (CollectTXTs resp.answer))

/-- `doTXTQuerySingleAnswer` (part_015 lines 74-80): `txts[0]`. -/
def doTXTQuerySingleAnswer (cl : ClientM) (domain : String) :
    Option (Except QErr (String × List String)) :=
  match doTXTQuery cl domain with
  | none => none
  | some (.error e) => some (.error e)
  | some (.ok txts) =>
    match txts.head? with
    | none => none
    | some t => some (.ok t)

/-- `getPTR` (part_015 lines 31-40): the `Ptr` names of a PTR query. -/
def getPTR (cl : ClientM) (domain : String) : Option (Except QErr (List String)) :=
  match doPTRQuery cl domain with
  | none => none
  | some (.error e) => some (.error e)
  | some (.ok ptrs) => some (.ok (ptrs.map Prod.snd))

/-- `getPTRSingleAnswer` (part_015 lines 42-48). -/
def getPTRSingleAnswer (cl : ClientM) (domain : String) :
    Option (Except QErr String) :=
  match doPTRQuerySingleAnswer cl domain with
  | none => none
  | some (.error e) => some (.error e)
  | some (.ok p) => some (.ok p.2)

/-- `GetServiceBrowserDomains` (part_015 lines 101-104). -/
def GetServiceBrowserDomains (cl : ClientM) (domain : String) :
    Option (Except QErr (List String)) :=
  getPTR cl ("b._dns-sd._udp." ++ domain)

/-- `GetDefaultServiceBrowserDomain` (part_015 lines 106-109). -/
def GetDefaultServiceBrowserDomain (cl : ClientM) (domain : String) :
    Option (Except QErr String) :=
  getPTRSingleAnswer cl ("db._dns-sd._udp." ++ domain)

/-- `GetLegacyServiceBrowserDomain` (part_015 lines 111-114). -/
def GetLegacyServiceBrowserDomain (cl : ClientM) (domain : String) :
    Option (Except QErr String) :=
  getPTRSingleAnswer cl ("lb._dns-sd._udp." ++ domain)

/-- Insertion into the `adt/set` string set: a no-op when already present
(the set ADT is an external collaborator; this is its standard semantics,
with insertion order kept for `Items`). -/
def sAdd (s : List String) (x : String) : List String :=
  if x ∈ s then s else s ++ [x]

/-- `set.Add(names...)`: fold `sAdd` over the added names. -/
def sAddAll (s : List String) (xs : List String) : List String := xs.foldl sAdd s

/-- Outcome of `GetAllServiceBrowserDomains`: domains, a joined error list,
or the `mu.BUG` defect branch. -/
inductive SBDResult where
  | ok (domains : List String)
  | err (errs : List QErr)
  | bug
deriving DecidableEq, Repr

/-- `GetAllServiceBrowserDomains` (part_015 lines 116-155): run the three
browsing-domain queries, union the successes into a set, and fail with the
joined errors only when the set ends up empty.  The sd.go variant
(lines 95-120) differs only in dropping the error join. -/
def GetAllServiceBrowserDomains (cl : ClientM) (domain : String) :
    Option SBDResult :=
  match GetServiceBrowserDomains cl domain with
  | none => none
  | some r1 =>
  match GetDefaultServiceBrowserDomain cl domain with
  | none => none
  | some r2 =>
  match GetLegacyServiceBrowserDomain cl domain with
  | none => none
  | some r3 =>
    let s1e1 : List String × List QErr :=
      match r1 with
      | .error e => ([], [e])
      | .ok names => (sAddAll [] names, [])
    let s2e2 : List String × List QErr :=
      match r2 with
      | .error e => (s1e1.1, s1e1.2 ++ [e])
      | .ok nm2 => (sAdd s1e1.1 nm2, s1e1.2)
    let s3e3 : List String × List QErr :=
      match r3 with
      | .error e => (s2e2.1, s2e2.2 ++ [e])
      | .ok nm3 => (sAdd s2e2.1 nm3, s2e2.2)
    if s3e3.1.length = 0 then
      if s3e3.2.length = 0 then some .bug
      else some (.err s3e3.2)
    else some (.ok s3e3.1)

/-- `getA` (src/unnamed/part_004 lines 22-43): type-A lookup through the
engine, keeping the parseable addresses, with `BadFormatAnswer` when none
parse. -/
def getA (cl : ClientM) (domain : String) : Option (Except QErr (List Nat)) :=
  match Query cl domain 1 with
  | none => none
  | some (.error e, _) => some (.error e)
  | some (.ok resp, _) =>
    let addrs := (CollectAs resp.answer).filterMap Prod.snd
    if addrs.length = 0 then some (.error (.dns .badFormatAnswer none))
    else some (.ok addrs)

/-- `getAAAA` (part_004 lines 53-74). -/
def getAAAA (cl : ClientM) (domain : String) : Option (Except QErr (List Nat)) :=
  match Query cl domain 28 with
  | none => none
  | some (.error e, _) => some (.error e)
  | some (.ok resp, _) =>
    let addrs := (CollectAAAAs resp.answer).filterMap Prod.snd
    if addrs.length = 0 then some (.error (.dns .badFormatAnswer none))
    else some (.ok addrs)

/-- Outcome of `GetIPs`: addresses, a joined error list, or the `mu.BUG`
defect branch `"neither addresses nor errors"`. -/
inductive IPsResult where
  | ok (addrs : List Nat)
  | err (errs : List QErr)
  | bug
deriving DecidableEq, Repr

/-- `GetIPs` (part_004 lines 84-112): combine `GetIP4s = getA` and
`GetIP6s = getAAAA`, preferring addresses, then joined errors, and falling
into the defect branch when both lists are empty. -/
def GetIPs (cl : ClientM) (name : String) : Option IPsResult :=
  match getA cl name with
  | none => none
  | some r4 =>
    match getAAAA cl name with
    | none => none
    | some r6 =>
      let ae1 : List Nat × List QErr :=
        match r4 with
        | .error e => ([], [e])
        | .ok as4 => (as4, [])
      let ae2 : List Nat × List QErr :=
        match r6 with
        | .error e => (ae1.1, ae1.2 ++ [e])
        | .ok as6 => (ae1.1 ++ as6, ae1.2)
      if ae2.1.length > 0 then some (.ok ae2.1)
      else if ae2.2.length > 0 then some (.err ae2.2)
      else some .bug

/-- Outcome of one underlying `dns.Client.ExchangeWithConn` call. -/
inductive ExOut where
  | ok (m : Msg)
  | eof
  | oerr (code : Nat)
deriving DecidableEq, Repr

/-- Error surfaced by a transport exchange. -/
inductive TErr where
  | dialFail
  | eof
  | oerr (code : Nat)
deriving DecidableEq, Repr

/-- The network environment of a transport client: `dial i` is the outcome
of the `i`-th dial (`none` = dial error, `some c` = a fresh connection
handle), `exch i` the outcome of the `i`-th `ExchangeWithConn` call. -/
structure TEnv where
  dial : Nat → Option Nat
  exch : Nat → ExOut

/-- The result an exchange caller sees for one underlying call outcome. -/
def interpExOut : ExOut → Except TErr Msg
  | .ok m => .ok m
  | .eof => .error .eof
  | .oerr code => .error (.oerr code)

/-- The `if !c.isConnected() { dial } else { reused = true }` prologue shared
by the TCP-style exchanges: resolve a connection, marking `reused` when an
existing one is kept, advancing the dial index on a fresh dial. -/
def resolveConn (env : TEnv) (conn : Option Nat) (reused : Bool) (d : Nat) :
    Option (Nat × Bool × Nat) :=
  match conn with
  | none =>
    match env.dial d with
    | none => none
    | some cn => some (cn, reused, d + 1)
  | some cn => some (cn, true, d)

/-- `Do53Client.queryTCP` (src/do53.go lines 64-101); `DoTClient.Exchange`
(src/dot.go) and `DoQClient.Exchange` (src/doq.go lines 51-87) share this
body verbatim.  `conn` is the retained connection (`nil` when closed);
`reused`/`retried` are the loop flags of the `goto reconnect` control flow;
`d`/`e` index the next dial and exchange outcomes.  Returns the caller's
result, the connection state afterwards, and the number of
`ExchangeWithConn` calls performed. -/
def queryTCPgo (env : TEnv) (conn : Option Nat) (reused retried : Bool)
    (d e : Nat) : Except TErr Msg × Option Nat × Nat :=
  match resolveConn env conn reused d with
  | none => (.error .dialFail, none, 0)
  | some (cn, reused2, d2) =>
    match env.exch e with
    | .ok m => (.ok m, some cn, 1)
    | .oerr code => (.error (.oerr code), some cn, 1)
    | .eof =>
      match retried, reused2 with
      | false, true =>
        match queryTCPgo env none true true d2 (e + 1) with
        | (r, cf, kk) => (r, cf, kk + 1)
      | _, _ => (.error .eof, none, 1)
termination_by (if retried then 0 else 1)
decreasing_by simp

/-- `Do53Client.queryTCP` as called: `reused` and `retried` start false. -/
def queryTCP (env : TEnv) (conn : Option Nat) (d e : Nat) :
    Except TErr Msg × Option Nat × Nat :=
  queryTCPgo env conn false false d e

/-- `Do53Client.exchangeTCP` of the `KeepOpen` variant
(src/unnamed/part_007 lines 72-112): as `queryTCP`, but after a completed
exchange the connection is closed unless `KeepOpen` is configured. -/
def exchangeTCPgo (keepOpen : Bool) (env : TEnv) (conn : Option Nat)
    (reused retried : Bool) (d e : Nat) : Except TErr Msg × Option Nat × Nat :=
  match resolveConn env conn reused d with
  | none => (.error .dialFail, none, 0)
  | some (cn, reused2, d2) =>
    let connAfter : Option Nat := if keepOpen then some cn else none
    match env.exch e with
    | .ok m => (.ok m, connAfter, 1)
    | .oerr code => (.error (.oerr code), connAfter, 1)
    | .eof =>
      match retried, reused2 with
      | false, true =>
        match exchangeTCPgo keepOpen env none true true d2 (e + 1) with
        | (r, cf, kk) => (r, cf, kk + 1)
      | _, _ => (.error .eof, none, 1)
termination_by (if retried then 0 else 1)
decreasing_by simp

/-- `Do53Client.exchangeUDP` (src/unnamed/part_007 lines 44-70): dial lazily,
perform one exchange, return any error unchanged; on a truncated response
with truncation-ignoring not configured, rerun the request on a freshly
constructed TCP-mode client (`config.dup()` with `TCP = true`, so the same
`KeepOpen`) and return its result.  The pair's second component counts the
`ExchangeWithConn` calls across the UDP attempt and the fallback. -/
def exchangeUDP (ignoreTruncation keepOpen : Bool) (env : TEnv)
    (conn : Option Nat) (d e : Nat) : Except TErr Msg × Nat :=
  match resolveConn env conn false d with
  | none => (.error .dialFail, 0)
  | some (_, _, d2) =>
    match env.exch e with
    | .eof => (.error .eof, 1)
    | .oerr code => (.error (.oerr code), 1)
    | .ok m =>
      if m.truncated && !ignoreTruncation then
        match exchangeTCPgo keepOpen env none false false d2 (e + 1) with
        | (r, _, kk) => (r, 1 + kk)
      else (.ok m, 1)

/-- `Do53Client.queryUDP` of the src/do53.go variant (lines 47-62): dial
lazily, perform one exchange, and return its outcome unchanged — this
variant has no truncation fallback. -/
def queryUDP (env : TEnv) (conn : Option Nat) (d e : Nat) :
    Except TErr Msg × Nat :=
  match resolveConn env conn false d with
  | none => (.error .dialFail, 0)
  | some (_, _, _) =>
    match env.exch e with
    | .eof => (.error .eof, 1)
    | .oerr code => (.error (.oerr code), 1)
    | .ok m => (.ok m, 1)

theorem scanAnswer_none_iff (qtype : Nat) (name : String) :
    ∀ l acc, scanAnswer qtype name l acc = none ↔
      ∃ rr ∈ l, rr.rrtype = qtype ∧ rr.name = name := by
  intro l
  induction l with
  | nil => intro acc; simp [scanAnswer]
  | cons rr rest ih =>
    intro acc
    by_cases h1 : rr.rrtype = qtype
    · by_cases h2 : rr.name = name
      · simp [scanAnswer, h1, h2]
      · simp only [scanAnswer, if_pos h1, if_neg h2]
        rw [ih]
        constructor
        · rintro ⟨rr2, hm, hp⟩
          exact ⟨rr2, List.mem_cons_of_mem _ hm, hp⟩
        · rintro ⟨rr2, hm, hp⟩
          rcases List.mem_cons.mp hm with rfl | hm2
          · exact absurd hp.2 h2
          · exact ⟨rr2, hm2, hp⟩
    · simp only [scanAnswer, if_neg h1]
      rw [ih]
      constructor
      · rintro ⟨rr2, hm, hp⟩
        exact ⟨rr2, List.mem_cons_of_mem _ hm, hp⟩
      · rintro ⟨rr2, hm, hp⟩
        rcases List.mem_cons.mp hm with rfl | hm2
        · exact absurd hp.1 h1
        · exact ⟨rr2, hm2, hp⟩

theorem scanAnswer_some_eq (qtype : Nat) (name : String) :
    ∀ l acc ans, scanAnswer qtype name l acc = some ans →
      ans = acc ++ l.filter (fun rr => decide (rr.rrtype = qtype)) := by
  intro l
  induction l with
  | nil =>
    intro acc ans h
    simp [scanAnswer] at h
    simp [← h]
  | cons rr rest ih =>
    intro acc ans h
    by_cases h1 : rr.rrtype = qtype
    · by_cases h2 : rr.name = name
      · simp [scanAnswer, h1, h2] at h
      · simp only [scanAnswer, if_pos h1, if_neg h2] at h
        have := ih (acc ++ [rr]) ans h
        rw [this, List.filter_cons, if_pos (by simpa using h1)]
        simp
    · simp only [scanAnswer, if_neg h1] at h
      have := ih acc ans h
      rw [this, List.filter_cons, if_neg (by simpa using h1)]

theorem OrderCNAMEs_singleton (x : CNAMERec) :
    OrderCNAMEs [x] = some (true, [x]) := by
  simp [OrderCNAMEs, outerLoop, innerLoop]

theorem QueryLoop_zero (cl : ClientM) (qtype count : Nat) (name : String)
    (lastResp : Option Msg) (lastCnames : List CNAMERec) :
    QueryLoop cl qtype 0 name count lastResp lastCnames =
      if lastCnames.length > 0 then
        some (.error (.dns .maxCNAMEs lastResp), count)
      else
        some (.error (.dns .missingAnswer lastResp), count) := rfl

theorem QueryLoop_succ (cl : ClientM) (qtype iters count : Nat) (name : String)
    (lastResp : Option Msg) (lastCnames : List CNAMERec) :
    QueryLoop cl qtype (iters + 1) name count lastResp lastCnames =
      (match queryAux cl name qtype with
      | .error e => some (.error e, count + 1)
      | .ok resp =>
        match scanAnswer qtype name resp.answer [] with
        | none => some (.ok resp, count + 1)
        | some ans =>
          if (CollectCNAMEs resp.answer).length = 0 then
            some (.error (.dns .missingAnswer (some resp)), count + 1)
          else
            match OrderCNAMEs (CollectCNAMEs resp.answer) with
            | none => none
            | some (ordered, cnames2) =>
              if ordered = false then
                some (.error (.dns .invalidCNAMEChain (some resp)), count + 1)
              else if (cnames2.headD dummyCNAME).name ≠ name then
                some (.error (.dns .invalidCNAMEChain (some resp)), count + 1)
              else if ans.any fun rr => (cnames2.getLastD dummyCNAME).target = rr.name then
                some (.ok resp, count + 1)
              else if ans.length > 0 then
                some (.error (.dns .invalidAnswer (some resp)), count + 1)
              else
                QueryLoop cl qtype iters (fqdn (cnames2.getLastD dummyCNAME).target)
                  (count + 1) (some resp) cnames2) := rfl

/-- C1 (counterexample): with `MaxCNAMEs = 0`, querying type A for
`example.com` against a server whose success response contains as only
answer a CNAME owned by `alias.example.com.`, the resolution engine returns
a failure of kind `InvalidCNAMEChain` — not `MissingAnswer` as the claim
states: the CNAME set is non-empty and trivially ordered, and it is the
chain-head check `cnames[0].Hdr.Name != name` that fires. -/
theorem Query_aliasOnly_counterexample :
    Query exC1Client "example.com" 1 =
      some (.error (.dns .invalidCNAMEChain (some exC1Msg)), 1) ∧
    DNSErrKind.invalidCNAMEChain ≠ DNSErrKind.missingAnswer := by
  constructor
  · simp [Query, QueryLoop, queryAux, exC1Client, exC1Msg, scanAnswer,
      CollectCNAMEs, OrderCNAMEs, outerLoop, innerLoop, fqdn, RR.rrtype,
      RData.rrtype, dummyCNAME]
  · decide

/-- C1 (amended): in the same scenario — success response code, no type-A
record in the answer, `MaxCNAMEs = 0` — the engine fails with kind
`InvalidCNAMEChain`, carrying the response, after one round trip. -/
theorem Query_aliasOnly_invalidCNAMEChain :
    exC1Msg.rcode = 0 ∧
    (∀ rr ∈ exC1Msg.answer, ¬ rr.rrtype = 1) ∧
    exC1Client.maxCNAMEs = 0 ∧
    Query exC1Client "example.com" 1 =
      some (.error (.dns .invalidCNAMEChain (some exC1Msg)), 1) := by
  refine ⟨rfl, by decide, rfl, ?_⟩
  simp [Query, QueryLoop, queryAux, exC1Client, exC1Msg, scanAnswer,
    CollectCNAMEs, OrderCNAMEs, outerLoop, innerLoop, fqdn, RR.rrtype,
    RData.rrtype, dummyCNAME]

/-- C5: for any `MaxCNAMEs ≥ 0`, if the first response has a success code
and its answer holds a record of the requested type whose owner equals the
fully-qualified query name, `Query` returns that response after exactly one
exchange. -/
theorem Query_direct_first_response (cl : ClientM) (name : String)
    (qtype : Nat) (resp : Msg) (hq : cl.query (fqdn name) qtype = .ok resp)
    (hrc : resp.rcode = 0)
    (hans : ∃ rr ∈ resp.answer, rr.rrtype = qtype ∧ rr.name = fqdn name) :
    Query cl name qtype = some (.ok resp, 1) := by
  have hscan : scanAnswer qtype (fqdn name) resp.answer [] = none :=
    (scanAnswer_none_iff qtype (fqdn name) resp.answer []).mpr hans
  rw [Query, QueryLoop_succ]
  simp [queryAux, hq, hrc, hscan]

def exC5Client : ClientM := ⟨3, fun _ _ => .ok (directMsg "host.example.")⟩

/-- C5 (witness): concrete instance of `Query_direct_first_response`. -/
theorem Query_direct_first_response_witness :
    Query exC5Client "host.example" 1 =
      some (.ok (directMsg "host.example."), 1) :=
  Query_direct_first_response exC5Client "host.example" 1
    (directMsg "host.example.") rfl rfl (by decide)

theorem QueryLoop_hop_ok (M k : Nat) (succ : String → String) (s0 : String)
    (hdot : ∀ i, i ≤ k → (hopName succ s0 i).data.getLast? = some '.')
    (hne : ∀ j, j < k → hopName succ s0 j ≠ hopName succ s0 k) :
    ∀ t j count iters lastR lastC, j + t = k → t < iters →
      QueryLoop (hopClient M k succ s0) 1 iters (hopName succ s0 j) count
          lastR lastC =
        some (.ok (directMsg (hopName succ s0 k)), count + t + 1) := by
  intro t
  induction t with
  | zero =>
    intro j count iters lastR lastC hjk hit
    obtain ⟨it2, rfl⟩ : ∃ it2, iters = it2 + 1 := ⟨iters - 1, by omega⟩
    have hj : j = k := by omega
    subst hj
    rw [QueryLoop_succ]
    simp [hopClient, queryAux, directMsg, scanAnswer, RR.rrtype, RData.rrtype]
  | succ t iht =>
    intro j count iters lastR lastC hjk hit
    obtain ⟨it2, rfl⟩ : ∃ it2, iters = it2 + 1 := ⟨iters - 1, by omega⟩
    have hjk2 : j < k := by omega
    have hnej : ¬ hopName succ s0 j = hopName succ s0 k := hne j hjk2
    rw [QueryLoop_succ]
    have hfq : fqdn (succ (hopName succ s0 j)) = succ (hopName succ s0 j) := by
      have hd := hdot (j + 1) (by omega)
      simp only [hopName] at hd
      rw [fqdn, if_pos hd]
    have hrec := iht (j + 1) (count + 1) it2
      (some (cnameMsg (hopName succ s0 j) (succ (hopName succ s0 j))))
      [⟨hopName succ s0 j, succ (hopName succ s0 j)⟩] (by omega) (by omega)
    simp only [hopName] at hrec
    simp only [hopClient, cnameMsg] at hrec
    have harith : count + 1 + t + 1 = count + (t + 1) + 1 := by omega
    rw [harith] at hrec
    simp [hopClient, queryAux, if_neg hnej, cnameMsg, scanAnswer, RR.rrtype,
      RData.rrtype, CollectCNAMEs, OrderCNAMEs_singleton, List.headD,
      List.getLastD, hfq, hrec]

theorem QueryLoop_hop_max (M : Nat) (succ : String → String) (s0 : String)
    (hdot : ∀ i, i ≤ M + 1 → (hopName succ s0 i).data.getLast? = some '.')
    (hne : ∀ j, j < M + 1 → hopName succ s0 j ≠ hopName succ s0 (M + 1)) :
    ∀ t j count lastR lastC, j + t = M + 1 → 1 ≤ t →
      QueryLoop (hopClient M (M + 1) succ s0) 1 t (hopName succ s0 j) count
          lastR lastC =
        some (.error (.dns .maxCNAMEs
          (some (cnameMsg (hopName succ s0 M) (succ (hopName succ s0 M))))),
          count + t) := by
  intro t
  induction t with
  | zero => intro j count lastR lastC hjk ht; omega
  | succ t iht =>
    intro j count lastR lastC hjk ht
    have hjk2 : j < M + 1 := by omega
    have hnej : ¬ hopName succ s0 j = hopName succ s0 (M + 1) := hne j hjk2
    rw [QueryLoop_succ]
    have hfq : fqdn (succ (hopName succ s0 j)) = succ (hopName succ s0 j) := by
      have hd := hdot (j + 1) (by omega)
      simp only [hopName] at hd
      rw [fqdn, if_pos hd]
    cases t with
    | zero =>
      -- last allowed iteration: consume the CNAME, then the loop budget is gone
      have hj : j = M := by omega
      subst hj
      simp [hopClient, queryAux, if_neg hnej, cnameMsg, scanAnswer, RR.rrtype,
        RData.rrtype, CollectCNAMEs, OrderCNAMEs_singleton, List.headD,
        List.getLastD, hfq, QueryLoop_zero]
    | succ t2 =>
      have hrec := iht (j + 1) (count + 1)
        (some (cnameMsg (hopName succ s0 j) (succ (hopName succ s0 j))))
        [⟨hopName succ s0 j, succ (hopName succ s0 j)⟩] (by omega) (by omega)
      simp only [hopName] at hrec
      simp only [hopClient, cnameMsg] at hrec
      have harith : count + 1 + (t2 + 1) = count + (t2 + 1 + 1) := by omega
      rw [harith] at hrec
      simp [hopClient, queryAux, if_neg hnej, cnameMsg, scanAnswer, RR.rrtype,
        RData.rrtype, CollectCNAMEs, OrderCNAMEs_singleton, List.headD,
        List.getLastD, hfq, hrec]

/-- C4: against a server requiring exactly `k ≤ MaxCNAMEs ≤ 10` alias hops
before a direct type-and-name match, the engine succeeds after exactly
`k + 1` exchanges; against one requiring `MaxCNAMEs + 1` hops it fails with
kind `MaxCNAMEs` (after `MaxCNAMEs + 1` exchanges).  The server is the
`hopClient` family over an arbitrary name generator whose names are
fully qualified and distinct from the family's endpoint. -/
theorem Query_hop_counts (M k : Nat) (succ : String → String) (s0 : String)
    (hM : M ≤ 10) (hk : k ≤ M)
    (hdot : ∀ i, i ≤ M + 1 → (hopName succ s0 i).data.getLast? = some '.')
    (hne : ∀ j k2, j < k2 → k2 ≤ M + 1 →
      hopName succ s0 j ≠ hopName succ s0 k2) :
    Query (hopClient M k succ s0) s0 1 =
      some (.ok (directMsg (hopName succ s0 k)), k + 1) ∧
    Query (hopClient M (M + 1) succ s0) s0 1 =
      some (.error (.dns .maxCNAMEs
        (some (cnameMsg (hopName succ s0 M) (succ (hopName succ s0 M))))),
        M + 1) := by
  have hfq0 : fqdn s0 = s0 := by
    have hd := hdot 0 (by omega)
    simp only [hopName] at hd
    rw [fqdn, if_pos hd]
  constructor
  · have h := QueryLoop_hop_ok M k succ s0
      (fun i hi => hdot i (by omega)) (fun j hj => hne j k hj (by omega))
      k 0 0 (M + 1) none [] (by omega) (by omega)
    rw [Query, hfq0]
    simp only [hopName] at h
    simpa using h
  · have h := QueryLoop_hop_max M succ s0 hdot
      (fun j hj => hne j (M + 1) hj (by omega))
      (M + 1) 0 0 none [] (by omega) (by omega)
    rw [Query, hfq0]
    simp only [hopName] at h
    simpa using h

def exSucc : String → String := fun s => "h" ++ s

/-- C4 (witness): `M = 1`, `k = 1`, names `x.`, `hx.`, `hhx.`. -/
theorem Query_hop_counts_witness :
    Query (hopClient 1 1 exSucc "x.") "x." 1 =
      some (.ok (directMsg (hopName exSucc "x." 1)), 2) ∧
    Query (hopClient 1 2 exSucc "x.") "x." 1 =
      some (.error (.dns .maxCNAMEs
        (some (cnameMsg (hopName exSucc "x." 1) (exSucc (hopName exSucc "x." 1))))),
        2) :=
  Query_hop_counts 1 1 exSucc "x." (by omega) (by omega)
    (by decide)
    (by
      intro j k2 hj hk2
      interval_cases k2 <;> interval_cases j <;> decide)

theorem QueryLoop_ok_has_qtype (cl : ClientM) (qtype : Nat) :
    ∀ iters name count lastR lastC resp cnt,
      QueryLoop cl qtype iters name count lastR lastC =
        some (.ok resp, cnt) →
      ∃ rr ∈ resp.answer, rr.rrtype = qtype := by
  intro iters
  induction iters with
  | zero =>
    intro name count lastR lastC resp cnt h
    rw [QueryLoop_zero] at h
    split at h <;> simp at h
  | succ iters ih =>
    intro name count lastR lastC resp cnt h
    rw [QueryLoop_succ] at h
    split at h
    next e heq => simp at h
    next resp0 heq =>
      split at h
      next hscan =>
        simp only [Option.some.injEq, Prod.mk.injEq, Except.ok.injEq] at h
        obtain ⟨rfl, -⟩ := h
        obtain ⟨rr, hm, hty, -⟩ :=
          (scanAnswer_none_iff qtype name resp0.answer []).mp hscan
        exact ⟨rr, hm, hty⟩
      next ans hscan =>
        split at h
        next hlen => simp at h
        next hlen =>
          split at h
          next hoc => simp at h
          next ordered cnames2 hoc =>
            split at h
            next hord => simp at h
            next hord =>
              split at h
              next hhead => simp at h
              next hhead =>
                split at h
                next hany =>
                  simp only [Option.some.injEq, Prod.mk.injEq,
                    Except.ok.injEq] at h
                  obtain ⟨rfl, -⟩ := h
                  obtain ⟨rr, hmem, -⟩ := List.any_eq_true.mp hany
                  have hansEq := scanAnswer_some_eq qtype name resp0.answer [] ans hscan
                  rw [hansEq] at hmem
                  simp only [List.nil_append, List.mem_filter] at hmem
                  exact ⟨rr, hmem.1, by simpa using hmem.2⟩
                next hany =>
                  split at h
                  next hlen2 => simp at h
                  next hlen2 => exact ih _ _ _ _ _ _ h

theorem rrtype_ptr_inv (rr : RR) (h : rr.rrtype = 12) :
    ∃ p, rr.rdata = .ptr p := by
  cases hr : rr.rdata <;> simp [RR.rrtype, hr, RData.rrtype] at h ⊢

theorem rrtype_srv_inv (rr : RR) (h : rr.rrtype = 33) :
    ∃ pr w po t, rr.rdata = .srv pr w po t := by
  cases hr : rr.rdata <;> simp [RR.rrtype, hr, RData.rrtype] at h ⊢

theorem rrtype_txt_inv (rr : RR) (h : rr.rrtype = 16) :
    ∃ ss, rr.rdata = .txt ss := by
  cases hr : rr.rdata <;> simp [RR.rrtype, hr, RData.rrtype] at h ⊢

theorem CollectPTRs_ne_nil (rrs : List RR) (rr : RR) (hm : rr ∈ rrs)
    (hty : rr.rrtype = 12) : ¬ CollectPTRs rrs = [] := by
  obtain ⟨p, hp⟩ := rrtype_ptr_inv rr hty
  intro hnil
  unfold CollectPTRs at hnil
  rw [List.filterMap_eq_nil] at hnil
  have h2 := hnil rr hm
  rw [hp] at h2
  simp at h2

theorem CollectSRVs_ne_nil (rrs : List RR) (rr : RR) (hm : rr ∈ rrs)
    (hty : rr.rrtype = 33) : ¬ CollectSRVs rrs = [] := by
  obtain ⟨pr, w, po, t, hp⟩ := rrtype_srv_inv rr hty
  intro hnil
  unfold CollectSRVs at hnil
  rw [List.filterMap_eq_nil] at hnil
  have h2 := hnil rr hm
  rw [hp] at h2
  simp at h2

theorem CollectTXTs_ne_nil (rrs : List RR) (rr : RR) (hm : rr ∈ rrs)
    (hty : rr.rrtype = 16) : ¬ CollectTXTs rrs = [] := by
  obtain ⟨ss, hp⟩ := rrtype_txt_inv rr hty
  intro hnil
  unfold CollectTXTs at hnil
  rw [List.filterMap_eq_nil] at hnil
  have h2 := hnil rr hm
  rw [hp] at h2
  simp at h2

/-- C10: a `Query`/`Lookup` that returns without error always returns a
response whose answer section holds at least one record of the requested
type; consequently the `do*QuerySingleAnswer` helpers never see an empty
collected list after a successful query. -/
theorem Query_success_has_matching_record :
    (∀ cl name qtype resp cnt,
       Query cl name qtype = some (.ok resp, cnt) →
       ∃ rr ∈ resp.answer, rr.rrtype = qtype) ∧
    (∀ cl d, ¬ doPTRQuery cl d = some (.ok [])) ∧
    (∀ cl d, ¬ doSRVQuery cl d = some (.ok [])) ∧
    (∀ cl d, ¬ doTXTQuery cl d = some (.ok [])) := by
  have hmain : ∀ cl name qtype resp cnt,
      Query cl name qtype = some (.ok resp, cnt) →
      ∃ rr ∈ resp.answer, rr.rrtype = qtype := by
    intro cl name qtype resp cnt h
    exact QueryLoop_ok_has_qtype cl qtype _ _ _ _ _ _ _ h
  refine ⟨hmain, ?_, ?_, ?_⟩
  · intro cl d hcon
    unfold doPTRQuery at hcon
    split at hcon
    · simp at hcon
    · simp at hcon
    next resp cnt heq =>
      simp only [Option.some.injEq, Except.ok.injEq] at hcon
      obtain ⟨rr, hm, hty⟩ := hmain cl d 12 resp cnt heq
      exact CollectPTRs_ne_nil resp.answer rr hm hty hcon
  · intro cl d hcon
    unfold doSRVQuery at hcon
    split at hcon
    · simp at hcon
    · simp at hcon
    next resp cnt heq =>
      simp only [Option.some.injEq, Except.ok.injEq] at hcon
      obtain ⟨rr, hm, hty⟩ := hmain cl d 33 resp cnt heq
      exact CollectSRVs_ne_nil resp.answer rr hm hty hcon
  · intro cl d hcon
    unfold doTXTQuery at hcon
    split at hcon
    · simp at hcon
    · simp at hcon
    next resp cnt heq =>
      simp only [Option.some.injEq, Except.ok.injEq] at hcon
      obtain ⟨rr, hm, hty⟩ := hmain cl d 16 resp cnt heq
      exact CollectTXTs_ne_nil resp.answer rr hm hty hcon

/-- C10 (witness): the invariant applied to a concrete successful query. -/
theorem Query_success_has_matching_record_witness :
    ∃ rr ∈ (directMsg "host.example.").answer, rr.rrtype = 1 :=
  Query_success_has_matching_record.1 exC5Client "host.example" 1
    (directMsg "host.example.") 1
    (by simp [Query, QueryLoop, queryAux, exC5Client, directMsg, scanAnswer,
      RR.rrtype, RData.rrtype, fqdn])

theorem getA_eq (cl : ClientM) (d : String) :
    getA cl d =
      match Query cl d 1 with
      | none => none
      | some (.error e, _) => some (.error e)
      | some (.ok resp, _) =>
        if ((CollectAs resp.answer).filterMap Prod.snd).length = 0 then
          some (.error (.dns .badFormatAnswer none))
        else some (.ok ((CollectAs resp.answer).filterMap Prod.snd)) := rfl

theorem getAAAA_eq (cl : ClientM) (d : String) :
    getAAAA cl d =
      match Query cl d 28 with
      | none => none
      | some (.error e, _) => some (.error e)
      | some (.ok resp, _) =>
        if ((CollectAAAAs resp.answer).filterMap Prod.snd).length = 0 then
          some (.error (.dns .badFormatAnswer none))
        else some (.ok ((CollectAAAAs resp.answer).filterMap Prod.snd)) := rfl

theorem getA_ok_nonempty (cl : ClientM) (d : String) (addrs : List Nat)
    (h : getA cl d = some (.ok addrs)) : ¬ addrs = [] := by
  rw [getA_eq] at h
  split at h
  · simp at h
  · simp at h
  next resp cnt heq =>
    split at h
    · simp at h
    next hlen =>
      simp only [Option.some.injEq, Except.ok.injEq] at h
      rw [← h]
      intro hc
      rw [hc] at hlen
      simp at hlen

theorem getAAAA_ok_nonempty (cl : ClientM) (d : String) (addrs : List Nat)
    (h : getAAAA cl d = some (.ok addrs)) : ¬ addrs = [] := by
  rw [getAAAA_eq] at h
  split at h
  · simp at h
  · simp at h
  next resp cnt heq =>
    split at h
    · simp at h
    next hlen =>
      simp only [Option.some.injEq, Except.ok.injEq] at h
      rw [← h]
      intro hc
      rw [hc] at hlen
      simp at hlen

/-- C9: `GetIPs` never reaches the `mu.BUG("neither addresses nor errors")`
defect branch, and a non-error return always carries at least one address:
`getA`/`getAAAA` convert an address-less success into `BadFormatAnswer`. -/
theorem GetIPs_no_silent_empty :
    ∀ cl name r, GetIPs cl name = some r →
      r ≠ .bug ∧ ∀ addrs, r = .ok addrs → addrs ≠ [] := by
  intro cl name r h
  unfold GetIPs at h
  split at h
  · simp at h
  next r4 heq4 =>
    split at h
    · simp at h
    next r6 heq6 =>
      rcases r4 with e4 | as4 <;> rcases r6 with e6 | as6 <;>
        simp only [] at h
      · -- both sub-queries failed: the joined error is returned
        simp at h
        subst h
        exact ⟨by simp, by simp⟩
      · -- v4 failed, v6 returned addresses
        have hne6 := getAAAA_ok_nonempty cl name as6 heq6
        have hpos : 0 < as6.length := List.length_pos.mpr hne6
        simp only [List.nil_append] at h
        rw [if_pos (by omega : as6.length > 0)] at h
        simp only [Option.some.injEq] at h
        subst h
        refine ⟨by simp, ?_⟩
        intro addrs haddr
        simp only [IPsResult.ok.injEq] at haddr
        subst haddr
        exact hne6
      · -- v4 returned addresses, v6 failed
        have hne4 := getA_ok_nonempty cl name as4 heq4
        have hpos : 0 < as4.length := List.length_pos.mpr hne4
        rw [if_pos (by omega : as4.length > 0)] at h
        simp only [Option.some.injEq] at h
        subst h
        refine ⟨by simp, ?_⟩
        intro addrs haddr
        simp only [IPsResult.ok.injEq] at haddr
        subst haddr
        exact hne4
      · -- both succeeded
        have hne4 := getA_ok_nonempty cl name as4 heq4
        have hpos : 0 < as4.length := List.length_pos.mpr hne4
        rw [if_pos (by simp; omega : (as4 ++ as6).length > 0)] at h
        simp only [Option.some.injEq] at h
        subst h
        refine ⟨by simp, ?_⟩
        intro addrs haddr
        simp only [IPsResult.ok.injEq] at haddr
        subst haddr
        simp only [ne_eq, List.append_eq_nil]
        rintro ⟨h4, -⟩
        exact hne4 h4

def exC9Client : ClientM := ⟨0, fun _ _ => .ok (directMsg "d.example.")⟩

/-- C9 (witness): the theorem applied at a client whose A query succeeds
with one address and whose AAAA query fails with `MissingAnswer`. -/
theorem GetIPs_no_silent_empty_witness :
    (IPsResult.ok [0]) ≠ IPsResult.bug ∧
    ∀ addrs, (IPsResult.ok [0]) = IPsResult.ok addrs → addrs ≠ [] :=
  GetIPs_no_silent_empty exC9Client "d.example" (.ok [0])
    (by simp [GetIPs, getA, getAAAA, Query, QueryLoop, queryAux, exC9Client,
      directMsg, scanAnswer, RR.rrtype, RData.rrtype, fqdn, CollectAs,
      CollectCNAMEs])

theorem sAdd_mem (s : List String) (x y : String) :
    y ∈ sAdd s x ↔ y ∈ s ∨ y = x := by
  unfold sAdd
  split
  next hin =>
    constructor
    · exact Or.inl
    · rintro (h | rfl)
      · exact h
      · exact hin
  next hin => simp

theorem sAdd_nodup (s : List String) (x : String) (h : s.Nodup) :
    (sAdd s x).Nodup := by
  unfold sAdd
  split
  · exact h
  next hin =>
    rw [List.nodup_append]
    refine ⟨h, List.nodup_singleton x, ?_⟩
    intro a ha
    simp only [List.mem_singleton]
    intro hax
    exact hin (hax ▸ ha)

theorem sAdd_ne_nil (s : List String) (x : String) : ¬ sAdd s x = [] := by
  unfold sAdd
  split
  next hin =>
    intro hc
    rw [hc] at hin
    simp at hin
  next => simp

theorem sAddAll_mem (xs : List String) :
    ∀ s y, y ∈ sAddAll s xs ↔ y ∈ s ∨ y ∈ xs := by
  induction xs with
  | nil => intro s y; simp [sAddAll]
  | cons x xs ih =>
    intro s y
    have hstep : sAddAll s (x :: xs) = sAddAll (sAdd s x) xs := rfl
    rw [hstep, ih (sAdd s x) y, sAdd_mem]
    simp only [List.mem_cons]
    tauto

theorem sAddAll_nodup (xs : List String) :
    ∀ s, s.Nodup → (sAddAll s xs).Nodup := by
  induction xs with
  | nil => intro s h; exact h
  | cons x xs ih =>
    intro s h
    exact ih (sAdd s x) (sAdd_nodup s x h)

theorem doPTRQuery_ok_nonempty (cl : ClientM) (d : String)
    (ptrs : List (String × String))
    (h : doPTRQuery cl d = some (.ok ptrs)) : ¬ ptrs = [] := by
  unfold doPTRQuery at h
  split at h
  · simp at h
  · simp at h
  next resp cnt heq =>
    simp only [Option.some.injEq, Except.ok.injEq] at h
    unfold Query at heq
    obtain ⟨rr, hm, hty⟩ := QueryLoop_ok_has_qtype cl 12 _ _ _ _ _ _ _ heq
    intro hc
    rw [hc] at h
    exact CollectPTRs_ne_nil resp.answer rr hm hty h

theorem getPTR_ok_nonempty (cl : ClientM) (d : String) (ns : List String)
    (h : getPTR cl d = some (.ok ns)) : ¬ ns = [] := by
  unfold getPTR at h
  split at h
  · simp at h
  · simp at h
  next ptrs heq =>
    simp only [Option.some.injEq, Except.ok.injEq] at h
    have hp := doPTRQuery_ok_nonempty cl d ptrs heq
    intro hc
    rw [hc] at h
    simp only [List.map_eq_nil] at h
    exact hp h

/-- C8: `GetAllServiceBrowserDomains` fails exactly when all three
browsing-domain sub-queries fail; with at least one success it returns the
deduplicated union of the successful results (and never reaches the
`mu.BUG` branch). -/
theorem GetAllSBD_error_iff_all_fail :
    ∀ cl d r1 r2 r3 res,
      GetServiceBrowserDomains cl d = some r1 →
      GetDefaultServiceBrowserDomain cl d = some r2 →
      GetLegacyServiceBrowserDomain cl d = some r3 →
      GetAllServiceBrowserDomains cl d = some res →
      ((∃ es, res = .err es) ↔
        ((∃ e, r1 = .error e) ∧ (∃ e, r2 = .error e) ∧ (∃ e, r3 = .error e))) ∧
      res ≠ .bug ∧
      (∀ ds, res = .ok ds → ds.Nodup ∧
        (∀ x, x ∈ ds ↔
          ((∃ ns, r1 = .ok ns ∧ x ∈ ns) ∨ r2 = .ok x ∨ r3 = .ok x))) := by
  intro cl d r1 r2 r3 res h1 h2 h3 hres
  unfold GetAllServiceBrowserDomains at hres
  rw [h1, h2, h3] at hres
  have hns1 : ∀ ns1, r1 = .ok ns1 → ¬ ns1 = [] := by
    intro ns1 hr
    exact getPTR_ok_nonempty cl ("b._dns-sd._udp." ++ d) ns1 (by rw [← hr]; exact h1)
  rcases r1 with e1 | ns1 <;> rcases r2 with e2 | nm2 <;>
    rcases r3 with e3 | nm3 <;> simp only [] at hres
  · -- all three failed
    simp at hres
    subst hres
    refine ⟨⟨fun _ => ⟨⟨e1, rfl⟩, ⟨e2, rfl⟩, ⟨e3, rfl⟩⟩, fun _ => ⟨_, rfl⟩⟩,
      by simp, ?_⟩
    intro ds hds
    simp at hds
  · -- only legacy succeeded
    have hne : ¬ (sAdd ([] : List String) nm3).length = 0 :=
      fun hc => sAdd_ne_nil [] nm3 (List.length_eq_zero.mp hc)
    rw [if_neg hne] at hres
    simp only [Option.some.injEq] at hres
    subst hres
    refine ⟨⟨by rintro ⟨es, hes⟩; simp at hes,
      by rintro ⟨-, -, ⟨e, he⟩⟩; simp at he⟩, by simp, ?_⟩
    intro ds hds
    simp only [SBDResult.ok.injEq] at hds
    subst hds
    refine ⟨sAdd_nodup [] nm3 (by simp), ?_⟩
    intro x
    simp [sAdd_mem, eq_comm]
  · -- only the default browser succeeded
    have hne : ¬ (sAdd ([] : List String) nm2).length = 0 :=
      fun hc => sAdd_ne_nil [] nm2 (List.length_eq_zero.mp hc)
    rw [if_neg hne] at hres
    simp only [Option.some.injEq] at hres
    subst hres
    refine ⟨⟨by rintro ⟨es, hes⟩; simp at hes,
      by rintro ⟨-, ⟨e, he⟩, -⟩; simp at he⟩, by simp, ?_⟩
    intro ds hds
    simp only [SBDResult.ok.injEq] at hds
    subst hds
    refine ⟨sAdd_nodup [] nm2 (by simp), ?_⟩
    intro x
    simp [sAdd_mem, eq_comm]
  · -- default and legacy succeeded
    have hne : ¬ (sAdd (sAdd ([] : List String) nm2) nm3).length = 0 :=
      fun hc => sAdd_ne_nil _ nm3 (List.length_eq_zero.mp hc)
    rw [if_neg hne] at hres
    simp only [Option.some.injEq] at hres
    subst hres
    refine ⟨⟨by rintro ⟨es, hes⟩; simp at hes,
      by rintro ⟨-, ⟨e, he⟩, -⟩; simp at he⟩, by simp, ?_⟩
    intro ds hds
    simp only [SBDResult.ok.injEq] at hds
    subst hds
    refine ⟨sAdd_nodup _ nm3 (sAdd_nodup [] nm2 (by simp)), ?_⟩
    intro x
    simp [sAdd_mem, eq_comm] <;> tauto
  · -- only the browser list succeeded
    have hnn := hns1 ns1 rfl
    obtain ⟨x0, hx0⟩ := List.exists_mem_of_ne_nil ns1 hnn
    have hmem : x0 ∈ sAddAll [] ns1 := (sAddAll_mem ns1 [] x0).mpr (Or.inr hx0)
    have hne : ¬ (sAddAll ([] : List String) ns1).length = 0 :=
      fun hc => (List.ne_nil_of_mem hmem) (List.length_eq_zero.mp hc)
    rw [if_neg hne] at hres
    simp only [Option.some.injEq] at hres
    subst hres
    refine ⟨⟨by rintro ⟨es, hes⟩; simp at hes,
      by rintro ⟨⟨e, he⟩, -, -⟩; simp at he⟩, by simp, ?_⟩
    intro ds hds
    simp only [SBDResult.ok.injEq] at hds
    subst hds
    refine ⟨sAddAll_nodup ns1 [] (by simp), ?_⟩
    intro x
    simp [sAddAll_mem]
  · -- browser list and legacy succeeded
    have hne : ¬ (sAdd (sAddAll ([] : List String) ns1) nm3).length = 0 :=
      fun hc => sAdd_ne_nil _ nm3 (List.length_eq_zero.mp hc)
    rw [if_neg hne] at hres
    simp only [Option.some.injEq] at hres
    subst hres
    refine ⟨⟨by rintro ⟨es, hes⟩; simp at hes,
      by rintro ⟨⟨e, he⟩, -, -⟩; simp at he⟩, by simp, ?_⟩
    intro ds hds
    simp only [SBDResult.ok.injEq] at hds
    subst hds
    refine ⟨sAdd_nodup _ nm3 (sAddAll_nodup ns1 [] (by simp)), ?_⟩
    intro x
    simp [sAdd_mem, sAddAll_mem, eq_comm] <;> tauto
  · -- browser list and default succeeded
    have hne : ¬ (sAdd (sAddAll ([] : List String) ns1) nm2).length = 0 :=
      fun hc => sAdd_ne_nil _ nm2 (List.length_eq_zero.mp hc)
    rw [if_neg hne] at hres
    simp only [Option.some.injEq] at hres
    subst hres
    refine ⟨⟨by rintro ⟨es, hes⟩; simp at hes,
      by rintro ⟨⟨e, he⟩, -, -⟩; simp at he⟩, by simp, ?_⟩
    intro ds hds
    simp only [SBDResult.ok.injEq] at hds
    subst hds
    refine ⟨sAdd_nodup _ nm2 (sAddAll_nodup ns1 [] (by simp)), ?_⟩
    intro x
    simp [sAdd_mem, sAddAll_mem, eq_comm] <;> tauto
  · -- all three succeeded
    have hne : ¬ (sAdd (sAdd (sAddAll ([] : List String) ns1) nm2) nm3).length = 0 :=
      fun hc => sAdd_ne_nil _ nm3 (List.length_eq_zero.mp hc)
    rw [if_neg hne] at hres
    simp only [Option.some.injEq] at hres
    subst hres
    refine ⟨⟨by rintro ⟨es, hes⟩; simp at hes,
      by rintro ⟨⟨e, he⟩, -, -⟩; simp at he⟩, by simp, ?_⟩
    intro ds hds
    simp only [SBDResult.ok.injEq] at hds
    subst hds
    refine ⟨sAdd_nodup _ nm3 (sAdd_nodup _ nm2 (sAddAll_nodup ns1 [] (by simp))), ?_⟩
    intro x
    simp [sAdd_mem, sAddAll_mem, eq_comm] <;> tauto

def exC8Client : ClientM :=
  ⟨0, fun name _ =>
    if name = "lb._dns-sd._udp.example." then
      .ok ⟨0, [⟨name, .ptr "dom.example."⟩], false⟩
    else .error 7⟩

/-- C8 (witness): only the legacy browsing-domain query succeeds, and the
one discovered domain is returned without error. -/
theorem GetAllSBD_error_iff_all_fail_witness :
    ((∃ es, (SBDResult.ok ["dom.example."]) = SBDResult.err es) ↔
      ((∃ e, (Except.error (QErr.net 7) : Except QErr (List String)) = .error e) ∧
       (∃ e, (Except.error (QErr.net 7) : Except QErr String) = .error e) ∧
       (∃ e, (Except.ok "dom.example." : Except QErr String) = .error e))) ∧
    (SBDResult.ok ["dom.example."]) ≠ SBDResult.bug ∧
    (∀ ds, (SBDResult.ok ["dom.example."]) = SBDResult.ok ds → ds.Nodup ∧
      (∀ x, x ∈ ds ↔
        ((∃ ns, (Except.error (QErr.net 7) : Except QErr (List String)) = .ok ns ∧ x ∈ ns) ∨
         (Except.error (QErr.net 7) : Except QErr String) = .ok x ∨
         (Except.ok "dom.example." : Except QErr String) = .ok x))) :=
  GetAllSBD_error_iff_all_fail exC8Client "example." (.error (.net 7))
    (.error (.net 7)) (.ok "dom.example.") (.ok ["dom.example."])
    (by decide) (by decide) (by decide) (by decide)

theorem queryTCPgo_retried_calls_le_one (env : TEnv) (conn : Option Nat)
    (reused : Bool) (d e : Nat) :
    (queryTCPgo env conn reused true d e).2.2 ≤ 1 := by
  rw [queryTCPgo.eq_def]
  cases conn with
  | none =>
    cases hd : env.dial d with
    | none => simp [resolveConn, hd]
    | some cn => cases hx : env.exch e <;> simp [resolveConn, hd, hx]
  | some cn => cases hx : env.exch e <;> simp [resolveConn, hx]

theorem exchangeTCPgo_retried_calls_le_one (ko : Bool) (env : TEnv)
    (conn : Option Nat) (reused : Bool) (d e : Nat) :
    (exchangeTCPgo ko env conn reused true d e).2.2 ≤ 1 := by
  rw [exchangeTCPgo.eq_def]
  cases conn with
  | none =>
    cases hd : env.dial d with
    | none => simp [resolveConn, hd]
    | some cn => cases hx : env.exch e <;> simp [resolveConn, hd, hx]
  | some cn => cases hx : env.exch e <;> simp [resolveConn, hx]

/-- C6: a TCP-style exchange (`Do53Client.queryTCP`; `DoTClient.Exchange`
and `DoQClient.Exchange` share the body; `exchangeTCP` is the `KeepOpen`
variant) performs at most two underlying exchanges per logical call; a
peer-closed (EOF) failure on a reused connection triggers exactly one
redial-and-retry whose outcome is surfaced; an EOF on a freshly dialed
connection — and a dial failure during the retry — is returned directly. -/
theorem tcp_exchange_retries_once :
    (∀ env conn d e, (queryTCPgo env conn false false d e).2.2 ≤ 2) ∧
    (∀ env cn cn2 d e, env.exch e = .eof → env.dial d = some cn2 →
      (queryTCPgo env (some cn) false false d e).1 =
        interpExOut (env.exch (e + 1)) ∧
      (queryTCPgo env (some cn) false false d e).2.2 = 2) ∧
    (∀ env cn d e, env.exch e = .eof → env.dial d = none →
      queryTCPgo env (some cn) false false d e = (.error .dialFail, none, 1)) ∧
    (∀ env cn d e, env.dial d = some cn → env.exch e = .eof →
      queryTCPgo env none false false d e = (.error .eof, none, 1)) ∧
    (∀ ko env conn d e, (exchangeTCPgo ko env conn false false d e).2.2 ≤ 2) ∧
    (∀ ko env cn cn2 d e, env.exch e = .eof → env.dial d = some cn2 →
      (exchangeTCPgo ko env (some cn) false false d e).1 =
        interpExOut (env.exch (e + 1)) ∧
      (exchangeTCPgo ko env (some cn) false false d e).2.2 = 2) ∧
    (∀ ko env cn d e, env.dial d = some cn → env.exch e = .eof →
      exchangeTCPgo ko env none false false d e = (.error .eof, none, 1)) := by
  refine ⟨?_, ?_, ?_, ?_, ?_, ?_, ?_⟩
  · intro env conn d e
    rw [queryTCPgo.eq_def]
    cases conn with
    | none =>
      cases hd : env.dial d with
      | none => simp [resolveConn, hd]
      | some cn => cases hx : env.exch e <;> simp [resolveConn, hd, hx]
    | some cn =>
      cases hx : env.exch e with
      | ok m => simp [resolveConn, hx]
      | oerr c => simp [resolveConn, hx]
      | eof =>
        simp only [hx]
        rcases hT : queryTCPgo env none true true d (e + 1) with ⟨r, cf, kk⟩
        have hle := queryTCPgo_retried_calls_le_one env none true d (e + 1)
        rw [hT] at hle
        simp only at hle
        simp [resolveConn, hT]
        omega
  · intro env cn cn2 d e hx hd
    cases hx2 : env.exch (e + 1) <;>
      simp [queryTCPgo, resolveConn, hx, hd, hx2, interpExOut]
  · intro env cn d e hx hd
    simp [queryTCPgo, resolveConn, hx, hd]
  · intro env cn d e hd hx
    simp [queryTCPgo, resolveConn, hx, hd]
  · intro ko env conn d e
    rw [exchangeTCPgo.eq_def]
    cases conn with
    | none =>
      cases hd : env.dial d with
      | none => simp [resolveConn, hd]
      | some cn => cases hx : env.exch e <;> simp [resolveConn, hd, hx]
    | some cn =>
      cases hx : env.exch e with
      | ok m => simp [resolveConn, hx]
      | oerr c => simp [resolveConn, hx]
      | eof =>
        simp only [hx]
        rcases hT : exchangeTCPgo ko env none true true d (e + 1) with ⟨r, cf, kk⟩
        have hle := exchangeTCPgo_retried_calls_le_one ko env none true d (e + 1)
        rw [hT] at hle
        simp only at hle
        simp [resolveConn, hT]
        omega
  · intro ko env cn cn2 d e hx hd
    cases hx2 : env.exch (e + 1) <;>
      simp [exchangeTCPgo, resolveConn, hx, hd, hx2, interpExOut]
  · intro ko env cn d e hd hx
    simp [exchangeTCPgo, resolveConn, hx, hd]

def exC7GoodMsg : Msg := ⟨0, [], false⟩

def exC6Env : TEnv :=
  ⟨fun _ => some 3, fun n => if n = 0 then .eof else .ok exC7GoodMsg⟩

/-- C6 (witness): a reused connection, an EOF on the first exchange and a
successful redial: the retried exchange's outcome is surfaced after exactly
two underlying calls. -/
theorem tcp_exchange_retries_once_witness :
    (queryTCPgo exC6Env (some 9) false false 0 0).1 =
      interpExOut (exC6Env.exch 1) ∧
    (queryTCPgo exC6Env (some 9) false false 0 0).2.2 = 2 :=
  tcp_exchange_retries_once.2.1 exC6Env 9 3 0 0 rfl rfl

/-- C7 (amended): for the Do53 variant implementing the fallback
(`exchangeUDP`, src/unnamed/part_007): a truncated success response with
truncation-ignoring unset is retried on a freshly constructed TCP-mode
client, whose result (and exchange count) the caller observes; with
truncation-ignoring set, or an untruncated response, the UDP response
itself is returned after one exchange. -/
theorem exchangeUDP_truncation_fallback :
    (∀ ko env cn d e m, env.exch e = .ok m → m.truncated = true →
      exchangeUDP false ko env (some cn) d e =
        ((exchangeTCPgo ko env none false false d (e + 1)).1,
         1 + (exchangeTCPgo ko env none false false d (e + 1)).2.2)) ∧
    (∀ ko env cn d e m, env.exch e = .ok m → m.truncated = true →
      exchangeUDP true ko env (some cn) d e = (.ok m, 1)) ∧
    (∀ it ko env cn d e m, env.exch e = .ok m → m.truncated = false →
      exchangeUDP it ko env (some cn) d e = (.ok m, 1)) := by
  refine ⟨?_, ?_, ?_⟩
  · intro ko env cn d e m hx htr
    rcases hT : exchangeTCPgo ko env none false false d (e + 1) with ⟨r, cf, kk⟩
    simp [exchangeUDP, resolveConn, hx, htr, hT]
  · intro ko env cn d e m hx htr
    simp [exchangeUDP, resolveConn, hx, htr]
  · intro it ko env cn d e m hx htr
    simp [exchangeUDP, resolveConn, hx, htr]

def exC7TruncMsg : Msg := ⟨0, [], true⟩

def exC7Env : TEnv := ⟨fun _ => some 1, fun _ => .ok exC7TruncMsg⟩

/-- C7 (counterexample): the src/do53.go Do53 client's UDP exchange
(`queryUDP`) returns a truncated response to the caller unchanged — it has
no truncation-to-TCP fallback at all, so the claim does not hold of every
Do53 UDP exchange in the repository. -/
theorem queryUDP_truncated_passthrough :
    exC7TruncMsg.truncated = true ∧
    queryUDP exC7Env (some 5) 0 0 = (.ok exC7TruncMsg, 1) := ⟨rfl, rfl⟩

def exC7Env2 : TEnv :=
  ⟨fun _ => some 1, fun n => if n = 0 then .ok exC7TruncMsg else .ok exC7GoodMsg⟩

/-- C7 (witness): a truncated first response is rerun on the fresh TCP
client, and the caller sees that client's result. -/
theorem exchangeUDP_truncation_fallback_witness :
    exchangeUDP false false exC7Env2 (some 5) 0 0 =
      ((exchangeTCPgo false exC7Env2 none false false 0 1).1,
       1 + (exchangeTCPgo false exC7Env2 none false false 0 1).2.2) :=
  exchangeUDP_truncation_fallback.1 false exC7Env2 5 0 0 exC7TruncMsg rfl rfl
